import Mathlib

/-!
# Verification of `frontend/src/App.js`

A shallow embedding of the client application: the markdown-to-markup transform
`formatContent` (a chain of JavaScript `String.prototype.replace` calls with
regular-expression literals), the event handlers of the generator and dashboard pages,
the cached session of `AuthProvider` and the welcome popup of `LandingPage`.

Strings are modelled as lists of characters.  The regular expressions of the source
carry no `u` flag, so they work on single code units; every character their patterns
mention lies in the ASCII range and `.` accepts every code unit that is not a line
terminator, so reading a string as a list of characters does not change any match.
-/

namespace App

/-- A JavaScript string, as the list of its characters. -/
abbrev Str := List Char

/-! ## Regular expressions -/

/-- ECMAScript `LineTerminator`: LF, CR, LS (U+2028), PS (U+2029). -/
def isLineTerminator (c : Char) : Bool :=
  c == '\n' || c == '\r' || c == Char.ofNat 0x2028 || c == Char.ofNat 0x2029

/-- The single-character atoms used by the patterns of `formatContent`. -/
inductive CharSet where
  /-- a literal (possibly escaped) pattern character, e.g. `#`, `\*`, `\.`, `\n` -/
  | lit (c : Char)
  /-- the wildcard `.`: anything but a line terminator (no `s` flag) -/
  | dot
  /-- the class `\d`: the ASCII digits (no `u` flag) -/
  | digit
  deriving DecidableEq, Repr

/-- The ASCII digits `0` to `9`. -/
def isAsciiDigit (c : Char) : Bool :=
  decide ('0'.toNat ≤ c.toNat) && decide (c.toNat ≤ '9'.toNat)

/-- Does the atom accept the character?  The `i` flag of some of the source patterns is
not modelled: the only literals are `#`, space, `-`, `.`, `*`, the backtick and LF, none
of which is cased, and without the `u` flag case folding never maps a character to an
ASCII character that is not a letter, so `i` changes no match. -/
def CharSet.test : CharSet → Char → Bool
  | .lit c, x => x == c
  | .dot, x => !isLineTerminator x
  | .digit, x => isAsciiDigit x

/-- Pattern items, in source order.  A capturing group `( ... )` is the items between
`openGroup` and `closeGroup`; the patterns of the source have at most one group. -/
inductive Node where
  /-- the assertion `^` -/
  | bol
  /-- the assertion `$` -/
  | eol
  /-- one character of the set -/
  | one (cs : CharSet)
  /-- the quantifier `*` (greedy) or `*?` (lazy) over a set -/
  | star (cs : CharSet) (greedy : Bool)
  /-- the quantifier `+` (greedy) or `+?` (lazy) over a set -/
  | plus (cs : CharSet) (greedy : Bool)
  | openGroup
  | closeGroup
  deriving DecidableEq, Repr

/-- A regular-expression literal: its items and its `m` flag.  (All literals of the
source carry `g`, which is modelled by `replace`.) -/
structure Regex where
  nodes : List Node
  multiline : Bool
  deriving DecidableEq, Repr

/-- The state of one match attempt: the character before the current position, the number
of characters consumed so far, and the text captured by group 1 (in reverse). -/
structure MState where
  prev : Option Char
  len : Nat
  capturing : Bool
  cap : List Char
  deriving DecidableEq, Repr

/-- Consume one character. -/
def MState.push (st : MState) (c : Char) : MState :=
  { st with prev := some c, len := st.len + 1,
            cap := if st.capturing then c :: st.cap else st.cap }

/-- The outcome of a successful match: the text of group 1 and the length of the match. -/
abbrev MatchResult := Str × Nat

/-- Assertion `^`: at the start of the input or, with `m`, right after a line terminator. -/
def atBol (multiline : Bool) : Option Char → Bool
  | none => true
  | some c => multiline && isLineTerminator c

/-- Assertion `$`: at the end of the input or, with `m`, right before a line terminator. -/
def atEol (multiline : Bool) : List Char → Bool
  | [] => true
  | c :: _ => multiline && isLineTerminator c

/-- The backtracking loop of `*` / `*?`: the greedy form first tries to take one more
character and falls back to the continuation `k`; the lazy form tries `k` first. -/
def starLoop (cs : CharSet) (greedy : Bool) (k : MState → List Char → Option MatchResult) :
    List Char → MState → Option MatchResult
  | [], st => k st []
  | c :: tl, st =>
    if cs.test c then
      if greedy then
        (starLoop cs greedy k tl (st.push c)).orElse (fun _ => k st (c :: tl))
      else
        (k st (c :: tl)).orElse (fun _ => starLoop cs greedy k tl (st.push c))
    else k st (c :: tl)

/-- Backtracking matcher for a sequence of items at one position. -/
def matchNodes (ml : Bool) : List Node → MState → List Char → Option MatchResult
  | [], st, _ => some (st.cap.reverse, st.len)
  | .bol :: ns, st, inp => if atBol ml st.prev then matchNodes ml ns st inp else none
  | .eol :: ns, st, inp => if atEol ml inp then matchNodes ml ns st inp else none
  | .one cs :: ns, st, inp =>
    match inp with
    | [] => none
    | c :: tl => if cs.test c then matchNodes ml ns (st.push c) tl else none
  | .star cs g :: ns, st, inp => starLoop cs g (matchNodes ml ns) inp st
  | .plus cs g :: ns, st, inp =>
    match inp with
    | [] => none
    | c :: tl => if cs.test c then starLoop cs g (matchNodes ml ns) tl (st.push c) else none
  | .openGroup :: ns, st, inp => matchNodes ml ns { st with capturing := true, cap := [] } inp
  | .closeGroup :: ns, st, inp => matchNodes ml ns { st with capturing := false } inp

/-- One match attempt of the expression at the position whose preceding character is
`prev` and whose remaining input is `inp`. -/
def Regex.matchAt (re : Regex) (prev : Option Char) (inp : List Char) : Option MatchResult :=
  matchNodes re.multiline re.nodes ⟨prev, 0, false, []⟩ inp

/-- A replacement template: literal text and references `$1`. -/
inductive RepPart where
  | text (s : Str)
  | group1
  deriving DecidableEq, Repr

/-- Expansion of a replacement template with the text of group 1. -/
def expand : List RepPart → Str → Str
  | [], _ => []
  | .text s :: ps, cap => s ++ expand ps cap
  | .group1 :: ps, cap => cap ++ expand ps cap

/-- The scan of `String.prototype.replace` with a global expression.  `skip` counts the
characters of the current match still to be passed over.  At a position where the
expression matches, the expanded template is emitted and the scan resumes at the end of
the match (one character further on after an empty match, that character being copied);
elsewhere the character is copied. -/
def replaceGo (re : Regex) (tpl : List RepPart) : List Char → Option Char → Nat → Str
  | [], prev, _ =>
    match re.matchAt prev [] with
    | some (cap, _) => expand tpl cap
    | none => []
  | c :: tl, _, skip + 1 => replaceGo re tpl tl (some c) skip
  | c :: tl, prev, 0 =>
    match re.matchAt prev (c :: tl) with
    | some (cap, 0) => expand tpl cap ++ c :: replaceGo re tpl tl (some c) 0
    | some (cap, n + 1) => expand tpl cap ++ replaceGo re tpl tl (some c) n
    | none => c :: replaceGo re tpl tl (some c) 0

/-- The call `s.replace(re, tpl)` for a global `re`. -/
def replace (re : Regex) (tpl : List RepPart) (s : Str) : Str :=
  replaceGo re tpl s none 0

/-! ## The patterns and templates of `formatContent` -/

/-- A run of literal pattern characters. -/
def lits (p : Str) : List Node := p.map (fun c => Node.one (.lit c))

/-- The tail `(.*$)` shared by the line patterns. -/
def restOfLine : List Node := [.openGroup, .star .dot true, .eol, .closeGroup]

/-- The group `(.*?)` of the inline patterns. -/
def lazyGroup : List Node := [.openGroup, .star .dot false, .closeGroup]

/-- The pattern `/^### (.*$)/gim`. -/
def reH3 : Regex :=
  ⟨.bol :: lits ['#', '#', '#', ' '] ++ restOfLine, true⟩

/-- The pattern `/^## (.*$)/gim`. -/
def reH2 : Regex :=
  ⟨.bol :: lits ['#', '#', ' '] ++ restOfLine, true⟩

/-- The pattern `/^# (.*$)/gim`. -/
def reH1 : Regex :=
  ⟨.bol :: lits ['#', ' '] ++ restOfLine, true⟩

/-- The pattern `/\*\*(.*?)\*\*/g`. -/
def reBold : Regex :=
  ⟨lits ['*', '*'] ++ lazyGroup ++ lits ['*', '*'], false⟩

/-- The pattern `/\*(.*?)\*/g`. -/
def reItalic : Regex :=
  ⟨lits ['*'] ++ lazyGroup ++ lits ['*'], false⟩

/-- The pattern `/`(.*?)`/g`. -/
def reCode : Regex :=
  ⟨lits ['`'] ++ lazyGroup ++ lits ['`'], false⟩

/-- The pattern `/^\- (.*$)/gim`. -/
def reBullet : Regex :=
  ⟨.bol :: lits ['-', ' '] ++ restOfLine, true⟩

/-- The pattern `/^\d+\. (.*$)/gim`. -/
def reNumbered : Regex :=
  ⟨.bol :: .plus .digit true :: lits ['.', ' '] ++ restOfLine, true⟩

/-- The pattern `/\n\n/g`. -/
def reBlankLine : Regex := ⟨lits ['\n', '\n'], false⟩

/-- The pattern `/\n/g`. -/
def reNewline : Regex := ⟨lits ['\n'], false⟩

/-- The pattern `/---/g`. -/
def reRule : Regex := ⟨lits ['-', '-', '-'], false⟩

/-- The template `'<tag>$1</tag>'`. -/
def wrapTpl (tag : Str) : List RepPart :=
  [.text (['<'] ++ tag ++ ['>']), .group1, .text (['<', '/'] ++ tag ++ ['>'])]

def tagH1 : Str := ['h', '1']
def tagH2 : Str := ['h', '2']
def tagH3 : Str := ['h', '3']
def tagStrong : Str := ['s', 't', 'r', 'o', 'n', 'g']
def tagEm : Str := ['e', 'm']
def tagCode : Str := ['c', 'o', 'd', 'e']
def tagLi : Str := ['l', 'i']

/-- The text `</p><p>`. -/
def parBreak : Str := ['<', '/', 'p', '>', '<', 'p', '>']
/-- The text `<br/>`. -/
def lineBreak : Str := ['<', 'b', 'r', '/', '>']
/-- The text `<hr/>`. -/
def hRule : Str := ['<', 'h', 'r', '/', '>']
/-- The text `<p>`. -/
def pOpen : Str := ['<', 'p', '>']
/-- The text `</p>`. -/
def pClose : Str := ['<', '/', 'p', '>']

/-- The chain of replacements of `formatContent`, in source order. -/
def formatHtml (content : Str) : Str :=
  content
    |> replace reH3 (wrapTpl tagH3)
    |> replace reH2 (wrapTpl tagH2)
    |> replace reH1 (wrapTpl tagH1)
    |> replace reBold (wrapTpl tagStrong)
    |> replace reItalic (wrapTpl tagEm)
    |> replace reCode (wrapTpl tagCode)
    |> replace reBullet (wrapTpl tagLi)
    |> replace reNumbered (wrapTpl tagLi)
    |> replace reBlankLine [.text parBreak]
    |> replace reNewline [.text lineBreak]
    |> replace reRule [.text hRule]

/-- `formatContent(content)`: `none` stands for `null`/`undefined`; these and the empty
string are falsy and give the empty string. -/
def formatContent : Option Str → Str
  | none => []
  | some content =>
    if content = [] then [] else pOpen ++ formatHtml content ++ pClose

/-! ## The generator page

`GeneratorPage` keeps its form in React state and talks to the backend through `axios`.
A handler is modelled as a function from the state it closes over, the authentication
context and the outcome of the request it awaits, to the state after it has run to
completion and the list of effects it performed, in order.  No other event is
interleaved with a handler. -/

/-- The user profile held by the authentication context (`res.data.user`). -/
structure User where
  id : Str
  email : Str
  name : Str
  deriving DecidableEq, Repr

/-- A browser storage area (`localStorage`, `sessionStorage`): `getItem` of a key is the
stored string, or `none` for `null`. -/
abbrev Storage := Str → Option Str

/-- What a page reads from its surroundings: `process.env.REACT_APP_BACKEND_URL`, the
`user` of `useAuth()` and the local storage that `getToken` reads. -/
structure PageEnv where
  backendUrl : Str
  user : Option User
  localStorage : Storage

/-- The constant ``API = `${BACKEND_URL}/api` ``. -/
def API (env : PageEnv) : Str := env.backendUrl ++ "/api".toList

/-- The function `getToken = () => localStorage.getItem("token")`. -/
def getToken (ls : Storage) : Option Str := ls "token".toList

/-- A string-or-null value inside a template literal: `null` is rendered as `null`. -/
def jsString : Option Str → Str
  | none => "null".toList
  | some s => s

/-- The data of a successful generation, `res.data`. -/
structure GenResult where
  prompt : Str
  subject : Str
  revision_type : Str
  content : Str
  deriving DecidableEq, Repr

/-- The React state of `GeneratorPage` (the two catalog lists apart, which no handler
below reads or writes). -/
structure GeneratorState where
  selectedSubject : Str
  selectedType : Str
  prompt : Str
  imageBase64 : Option Str
  imageName : Str
  loading : Bool
  result : Option GenResult
  deriving DecidableEq, Repr

/-- The initial values of the `useState` calls. -/
def GeneratorState.initial : GeneratorState :=
  { selectedSubject := [], selectedType := [], prompt := [], imageBase64 := none,
    imageName := [], loading := false, result := none }

/-- The JSON bodies the page posts. -/
inductive Body where
  | generate (prompt subject revision_type : Str) (image_base64 : Option Str)
  | save (prompt subject revision_type content : Str)
  deriving DecidableEq, Repr

/-- The observable effects of a handler. -/
inductive Effect where
  /-- the call `axios.post(url, body, { headers })` -/
  | post (url : Str) (body : Body) (headers : List (Str × Str))
  /-- the call `toast.error(msg)` -/
  | toastError (msg : Str)
  /-- the call `toast.success(msg)` -/
  | toastSuccess (msg : Str)
  /-- the call `console.error(e)` -/
  | consoleError
  /-- the call `axios.delete(url, { headers })` -/
  | delete (url : Str) (headers : List (Str × Str))
  deriving DecidableEq, Repr

/-- ECMAScript `WhiteSpace`: TAB, VT, FF, ZWNBSP and the space separators. -/
def isWhiteSpace (c : Char) : Bool :=
  c.toNat ∈ [0x9, 0xB, 0xC, 0x20, 0xA0, 0x1680, 0x202F, 0x205F, 0x3000, 0xFEFF] ||
    (decide (0x2000 ≤ c.toNat) && decide (c.toNat ≤ 0x200A))

/-- The characters `String.prototype.trim` strips: white space and line terminators. -/
def isTrimChar (c : Char) : Bool := isWhiteSpace c || isLineTerminator c

/-- The method `String.prototype.trim`. -/
def jsTrim (s : Str) : Str :=
  ((s.dropWhile isTrimChar).reverse.dropWhile isTrimChar).reverse

/-- Truthiness of a string: it is not empty. -/
def truthy (s : Str) : Bool := !s.isEmpty

/-- The outcome of the awaited `axios.post` of `handleGenerate`: the response data, or
an error `e` with `e.response?.data?.detail` (`none` when absent). -/
inductive GenerateOutcome where
  | ok (data : GenResult)
  | error (detail : Option Str)
  deriving DecidableEq, Repr

/-- The message `e.response?.data?.detail || "Erreur lors de la génération"`. -/
def generateErrorMessage : Option Str → Str
  | some d => if truthy d then d else "Erreur lors de la génération".toList
  | none => "Erreur lors de la génération".toList

/-- The handler `handleGenerate`. -/
def handleGenerate (env : PageEnv) (st : GeneratorState) (outcome : GenerateOutcome) :
    GeneratorState × List Effect :=
  if !truthy st.selectedSubject || !truthy st.selectedType || !truthy (jsTrim st.prompt) then
    (st, [.toastError "Remplis tous les champs requis".toList])
  else
    let st1 := { st with loading := true }
    let st2 := { st1 with result := none }
    let headers : List (Str × Str) :=
      if env.user.isSome then
        [("Authorization".toList, "Bearer ".toList ++ jsString (getToken env.localStorage))]
      else []
    let request := Effect.post (API env ++ "/generate".toList)
      (.generate st.prompt st.selectedSubject st.selectedType st.imageBase64) headers
    match outcome with
    | .ok data =>
      ({ st2 with result := some data, loading := false },
        [request, .toastSuccess "Révision générée avec succès !".toList])
    | .error detail =>
      ({ st2 with loading := false },
        [request, .consoleError, .toastError (generateErrorMessage detail)])

/-- The outcome of the awaited `axios.post` of `handleSave`. -/
inductive SaveOutcome where
  | ok
  | error
  deriving DecidableEq, Repr

/-- The handler `handleSave`.  With `result` null the evaluation of `result.prompt`
throws inside the `try` block before `axios.post` is called, and the `catch` block
raises the error notification. -/
def handleSave (env : PageEnv) (st : GeneratorState) (outcome : SaveOutcome) :
    GeneratorState × List Effect :=
  if env.user.isNone then
    (st, [.toastError "Connecte-toi pour sauvegarder".toList])
  else
    match st.result with
    | none => (st, [.toastError "Erreur lors de la sauvegarde".toList])
    | some result =>
      let request := Effect.post (API env ++ "/revisions".toList)
        (.save result.prompt result.subject result.revision_type result.content)
        [("Authorization".toList, "Bearer ".toList ++ jsString (getToken env.localStorage))]
      match outcome with
      | .ok => (st, [request, .toastSuccess "Révision sauvegardée !".toList])
      | .error => (st, [request, .toastError "Erreur lors de la sauvegarde".toList])

/-- The result panel is rendered: the branch `result ? ( ... ) : ( ... )` of the page.
The save button, the only place where `handleSave` is wired, is inside this branch. -/
def resultPanelShown (st : GeneratorState) : Bool := st.result.isSome

/-- The save button is rendered: inside the result panel, under `user && ( ... )`. -/
def saveButtonShown (env : PageEnv) (st : GeneratorState) : Bool :=
  resultPanelShown st && env.user.isSome

/-- Is the effect a request? -/
def Effect.isPost : Effect → Bool
  | .post _ _ _ => true
  | _ => false

/-- Is the effect an error notification? -/
def Effect.isErrorToast : Effect → Bool
  | .toastError _ => true
  | _ => false

/-- The requests among the effects of a handler, in order. -/
def requests (effects : List Effect) : List Effect := effects.filter Effect.isPost

/-- The state passes the input guard of `handleGenerate`: a subject and a revision type
are selected and the prompt is not blank. -/
def passesGuard (st : GeneratorState) : Bool :=
  truthy st.selectedSubject && truthy st.selectedType && truthy (jsTrim st.prompt)

/-- A page environment with a logged-in user and a stored token. -/
def sampleEnv : PageEnv :=
  { backendUrl := "https://goya.example".toList,
    user := some ⟨"u1".toList, "eleve@goya.example".toList, "Eleve".toList⟩,
    localStorage := fun k => if k = "token".toList then some "tok123".toList else none }

/-- A page environment with no user. -/
def anonymousEnv : PageEnv :=
  { backendUrl := "https://goya.example".toList, user := none, localStorage := fun _ => none }

/-- A generation result. -/
def sampleResult : GenResult :=
  { prompt := "Pythagore".toList, subject := "maths".toList, revision_type := "fiche".toList,
    content := "# Pythagore".toList }

/-- A filled form that already displays a result. -/
def sampleState : GeneratorState :=
  { selectedSubject := "maths".toList, selectedType := "fiche".toList,
    prompt := "Thales".toList, imageBase64 := none, imageName := [], loading := false,
    result := some sampleResult }

/-- The inner HTML of the result panel of `GeneratorPage`: when a result is displayed,
`dangerouslySetInnerHTML={{ __html: formatContent(result.content) }}`. -/
def resultInnerHtml (st : GeneratorState) : Option Str :=
  st.result.map (fun result => formatContent (some result.content))

/-! ## Browser storage, `AuthProvider` and `LandingPage` -/

/-- The method `Storage.prototype.setItem`. -/
def setItem (s : Storage) (key value : Str) : Storage :=
  fun k => if k = key then some value else s k

/-- The method `Storage.prototype.removeItem`. -/
def removeItem (s : Storage) (key : Str) : Storage :=
  fun k => if k = key then none else s k

/-- Truthiness of what `getItem` returns: a string that is not empty (`null` is falsy). -/
def truthyItem : Option Str → Bool
  | none => false
  | some s => truthy s

/-- The two functions `JSON.stringify` and `JSON.parse` of the platform, on user profiles;
`parse` gives `none` when `JSON.parse` throws.  They are parameters of the model. -/
structure JsonCodec where
  stringify : User → Str
  parse : Str → Option User

/-- The React state of `AuthProvider`. -/
structure AuthState where
  user : Option User
  loading : Bool
  deriving DecidableEq, Repr

/-- The initial values of the `useState` calls of `AuthProvider`. -/
def AuthState.initial : AuthState := { user := none, loading := true }

/-- The restore effect of `AuthProvider` (the `useEffect` that runs once on mount), from
the initial state: the state after it, or `none` when `JSON.parse` throws. -/
def authMount (codec : JsonCodec) (ls : Storage) : Option AuthState :=
  let token := ls "token".toList
  let savedUser := ls "user".toList
  if truthyItem token && truthyItem savedUser then
    match savedUser.bind codec.parse with
    | some u => some { AuthState.initial with user := some u, loading := false }
    | none => none
  else some { AuthState.initial with loading := false }

/-- The function `login` of `AuthProvider`: the local storage and the state after it. -/
def login (codec : JsonCodec) (ls : Storage) (st : AuthState) (token : Str) (userData : User) :
    Storage × AuthState :=
  (setItem (setItem ls "token".toList token) "user".toList (codec.stringify userData),
    { st with user := some userData })

/-- The function `logout` of `AuthProvider`: the local storage and the state after it. -/
def logout (ls : Storage) (st : AuthState) : Storage × AuthState :=
  (removeItem (removeItem ls "token".toList) "user".toList, { st with user := none })

/-- The React state of `LandingPage`. -/
structure LandingState where
  showWelcome : Bool
  deriving DecidableEq, Repr

/-- The mount effect of `LandingPage`, from the initial state `showWelcome = false`: the
session storage and the state after it. -/
def landingMount (ss : Storage) : Storage × LandingState :=
  let hasSeenWelcome := ss "hasSeenWelcome".toList
  if !truthyItem hasSeenWelcome then
    (setItem ss "hasSeenWelcome".toList "true".toList, { showWelcome := true })
  else (ss, { showWelcome := false })

/-- A run of `n` successive mounts of `LandingPage` over one session storage: for each
mount, in order, whether it opened the popup. -/
def landingMounts : Nat → Storage → List Bool
  | 0, _ => []
  | n + 1, ss => (landingMount ss).2.showWelcome :: landingMounts n (landingMount ss).1

/-- The empty storage. -/
def emptyStorage : Storage := fun _ => none

/-- The session storages of a tab session: it starts without a `hasSeenWelcome` value,
and the only write to that key is the one of the mount effect of `LandingPage`. -/
inductive SessionReached : Storage → Prop where
  | start (ss : Storage) (h : ss "hasSeenWelcome".toList = none) : SessionReached ss
  | mount (ss : Storage) (h : SessionReached ss) : SessionReached (landingMount ss).1

/-- A codec for the concrete examples: the profile is written as a JSON object with the
three fields in order, `"` and `\` escaped by a backslash, and read back. -/
def sampleStringify (u : User) : Str :=
  let esc : Str → Str := fun s => s.flatMap (fun c =>
    if c = '"' ∨ c = '\\' then ['\\', c] else [c])
  "\x7b\"id\":\"".toList ++ esc u.id ++ "\",\"email\":\"".toList ++ esc u.email ++
    "\",\"name\":\"".toList ++ esc u.name ++ "\"\x7d".toList

/-- Reads an escaped string up to its closing quote: the string and what follows. -/
def readQuoted : Str → Str → Option (Str × Str)
  | _, [] => none
  | acc, '"' :: rest => some (acc.reverse, rest)
  | _, ['\\'] => none
  | acc, '\\' :: c :: rest => readQuoted (c :: acc) rest
  | acc, c :: rest => readQuoted (c :: acc) rest

/-- Drops an expected prefix. -/
def expectPrefix (p s : Str) : Option Str :=
  if p <+: s then some (s.drop p.length) else none

/-- The parser that goes with `sampleStringify`. -/
def sampleParse (s : Str) : Option User := do
  let s1 ← expectPrefix "\x7b\"id\":\"".toList s
  let (id, s2) ← readQuoted [] s1
  let s3 ← expectPrefix ",\"email\":\"".toList s2
  let (email, s4) ← readQuoted [] s3
  let s5 ← expectPrefix ",\"name\":\"".toList s4
  let (name, s6) ← readQuoted [] s5
  if s6 = "\x7d".toList then some ⟨id, email, name⟩ else none

/-- The codec of the concrete examples. -/
def sampleCodec : JsonCodec := ⟨sampleStringify, sampleParse⟩

/-- A user profile. -/
def sampleUser : User := ⟨"u1".toList, "eleve@goya.example".toList, "El\"eve".toList⟩

/-! ## The dashboard page -/

/-- A saved revision, as listed by `GET /api/revisions`. -/
structure Revision where
  id : Str
  subject : Str
  revision_type : Str
  prompt : Str
  content : Str
  created_at : Str
  deriving DecidableEq, Repr

/-- The React state of `DashboardPage`. -/
structure DashboardState where
  revisions : List Revision
  loading : Bool
  selectedRevision : Option Revision
  deriving DecidableEq, Repr

/-- The initial values of the `useState` calls of `DashboardPage`. -/
def DashboardState.initial : DashboardState :=
  { revisions := [], loading := true, selectedRevision := none }

/-- The click on the card of a revision: `setSelectedRevision(revision)`. -/
def selectRevision (st : DashboardState) (revision : Revision) : DashboardState :=
  { st with selectedRevision := some revision }

/-- The outcome of the awaited `axios.delete` of `handleDelete`. -/
inductive DeleteOutcome where
  | ok
  | error
  deriving DecidableEq, Repr

/-- The handler `handleDelete`, an `async` function.  `captured` is the state of the
render whose closure the handler is: the `revisions` and `selectedRevision` that the
handler reads after the `await` are those of the click.  `current` is the state at the
time the awaited request settles, after whatever other events ran in between: the
setters act on it.  When no event runs in between, `current` is `captured`. -/
def handleDelete (env : PageEnv) (captured : DashboardState) (id : Str)
    (outcome : DeleteOutcome) (current : DashboardState) : DashboardState × List Effect :=
  let request := Effect.delete (API env ++ "/revisions/".toList ++ id)
    [("Authorization".toList, "Bearer ".toList ++ jsString (getToken env.localStorage))]
  match outcome with
  | .ok =>
    let st1 := { current with revisions := captured.revisions.filter (fun r => r.id != id) }
    let st2 :=
      if captured.selectedRevision.map (fun r => r.id) = some id then
        { st1 with selectedRevision := none }
      else st1
    (st2, [request, .toastSuccess "Révision supprimée".toList])
  | .error => (current, [request, .toastError "Erreur lors de la suppression".toList])

/-- The invariant of the dashboard: the selection is null, or some listed revision has the
id of the selection. -/
def SelectionListed (st : DashboardState) : Prop :=
  st.selectedRevision = none ∨
    ∃ s r, st.selectedRevision = some s ∧ r ∈ st.revisions ∧ r.id = s.id

/-- A saved revision with id `r1`. -/
def revisionOne : Revision :=
  ⟨"r1".toList, "maths".toList, "fiche".toList, "Pythagore".toList, "# P".toList, "2025".toList⟩

/-- A saved revision with id `r2`. -/
def revisionTwo : Revision :=
  ⟨"r2".toList, "svt".toList, "qcm".toList, "Cellule".toList, "# C".toList, "2025".toList⟩

/-- A dashboard that lists the two revisions and shows none. -/
def listedDashboard : DashboardState :=
  { revisions := [revisionOne, revisionTwo], loading := false, selectedRevision := none }

/-- A dashboard that lists the two revisions and shows the first. -/
def sampleDashboard : DashboardState := selectRevision listedDashboard revisionOne

/-! ## Well-nested markup -/

/-- The effect of the tag `<name>` on the stack of open elements: a name that ends in `/`
is self-closing, a name that starts with `/` must close the element opened last, any other
name opens an element.  `none` when a closing tag does not match. -/
def applyTag (stack : List Str) (name : Str) : Option (List Str) :=
  if name.getLast? = some '/' then some stack
  else
    match name with
    | '/' :: n =>
      match stack with
      | top :: rest => if top = n then some rest else none
      | [] => none
    | _ => some (name :: stack)

/-- The scan of a markup text for its tags: `inTag` holds the characters read since an
unclosed `<` (in reverse).  The text is accepted when every closing tag matches the
element opened last and no element is left open at the end. -/
def nestGo : List Str → Option Str → Str → Bool
  | stack, none, [] => stack.isEmpty
  | _, some _, [] => false
  | stack, none, c :: tl =>
    if c = '<' then nestGo stack (some []) tl else nestGo stack none tl
  | stack, some acc, c :: tl =>
    if c = '>' then
      match applyTag stack acc.reverse with
      | some stack2 => nestGo stack2 none tl
      | none => false
    else nestGo stack (some (c :: acc)) tl

/-- The markup is well nested: opening tags are closed by their matching closing tags in
last-opened-first-closed order, tags like `<br/>` being self-closing. -/
def wellNested (markup : Str) : Bool := nestGo [] none markup

/-- An input whose italic and code spans overlap. -/
def crossingInput : Str := "*a `b* c`".toList

/-- An input whose bold and italic spans overlap. -/
def crossingStars : Str := "**a *b** c*".toList

/-- Text without `<`, `>` and `*`. -/
def NoMarkup (s : Str) : Prop :=
  ∀ c ∈ s, c ≠ '<' ∧ c ≠ '>' ∧ c ≠ '*'

instance (s : Str) : Decidable (NoMarkup s) := by
  unfold NoMarkup
  infer_instance

/-- The characters allowed in the name of a tag the transform writes: none of them is
special for any pattern or for the scan of the tags. -/
def TagName (name : Str) : Prop :=
  ∀ c ∈ name, c ≠ '<' ∧ c ≠ '>' ∧ c ≠ '\n' ∧ c ≠ '-'

instance (name : Str) : Decidable (TagName name) := by
  unfold TagName
  infer_instance

/-- A text made of characters other than `<` and `>` and of tags `<name>`. -/
inductive Tagged : Str → Prop where
  | nil : Tagged []
  | chr (c : Char) (s : Str) (h1 : c ≠ '<') (h2 : c ≠ '>') (hs : Tagged s) : Tagged (c :: s)
  | tag (name s : Str) (hn : TagName name) (hs : Tagged s) :
      Tagged ('<' :: (name ++ '>' :: s))

/-! ## Auxiliary definitions for the statements and proofs -/

/-- Consume a run of characters. -/
def MState.pushAll (st : MState) : Str → MState
  | [] => st
  | c :: tl => (st.push c).pushAll tl

/-- The character before the position reached after reading `p`. -/
def prevAfter (prev : Option Char) : Str → Option Char
  | [] => prev
  | c :: tl => prevAfter (some c) tl

/-- The part of `s` before its first line terminator. -/
def lineOf (s : Str) : Str := s.takeWhile (fun c => !isLineTerminator c)

/-- What the scan needs to know of a pattern anchored at line starts: it fails after a
character that is not a line terminator, it fails on the empty input, and whether it
matches depends only on the current line. -/
structure IsLineRegex (re : Regex) : Prop where
  anchored : ∀ c inp, isLineTerminator c = false → re.matchAt (some c) inp = none
  atNil : ∀ prev, re.matchAt prev [] = none
  lineLocal : ∀ prev inp, re.matchAt prev (lineOf inp) = none → re.matchAt prev inp = none

/-- A line that begins with a non-empty run of ASCII digits followed by `. `. -/
def beginsNumbered (inp : Str) : Bool :=
  !(inp.takeWhile isAsciiDigit).isEmpty &&
    decide (['.', ' '] <+: inp.dropWhile isAsciiDigit)

/-- The text `---`. -/
def dashes : Str := ['-', '-', '-']

/-- The markup `<tag>t</tag>`. -/
def wrap (tag t : Str) : Str := ['<'] ++ tag ++ ['>'] ++ t ++ ['<', '/'] ++ tag ++ ['>']

/-- Text that "contains no line terminator, no `*`, no backtick and no substring `---`". -/
def Plain (t : Str) : Prop :=
  (∀ c ∈ t, isLineTerminator c = false) ∧ '*' ∉ t ∧ '`' ∉ t ∧ ¬ dashes <:+: t

instance (t : Str) : Decidable (Plain t) := by
  unfold Plain
  infer_instance

/-- Text that begins with `# `, `## `, `### `, `- ` or ASCII digits followed by `. `. -/
def beginsBlock (t : Str) : Bool :=
  decide (['#', ' '] <+: t) || decide (['#', '#', ' '] <+: t) ||
    decide (['#', '#', '#', ' '] <+: t) || decide (['-', ' '] <+: t) || beginsNumbered t

/-- A tag name that is safe inside a line: none of its characters is special. -/
def SafeTag (tag : Str) : Prop :=
  ∀ c ∈ tag, isLineTerminator c = false ∧ c ≠ '*' ∧ c ≠ '`' ∧ c ≠ '-'

instance (tag : Str) : Decidable (SafeTag tag) := by
  unfold SafeTag
  infer_instance

/-- A line on which every pass of `formatContent` is the identity. -/
structure Inert (W : Str) : Prop where
  noBreak : ∀ c ∈ W, isLineTerminator c = false
  noStar : '*' ∉ W
  noTick : '`' ∉ W
  noBlock : beginsBlock W = false
  rule : ∀ tpl, replace reRule tpl W = W

/-- The output of `formatContent` on the example of the specification. -/
def exampleOutput : Str := "<p><h1>Title</h1><br/><strong>bold</strong> text</p>".toList

/-- C1, as stated: the markup contains the header element holding `Title` and, after it, a
paragraph element that contains `<strong>bold</strong>`. -/
def HeaderThenParagraph (out : Str) : Prop :=
  ∃ a b c d e : Str,
    out = a ++ "<h1>Title</h1>".toList ++ b ++ "<p>".toList ++ c ++
      "<strong>bold</strong>".toList ++ d ++ "</p>".toList ++ e

/-- The line patterns of `formatContent`. -/
def lineRegexes : List Regex := [reH3, reH2, reH1, reBullet, reNumbered]

/-- A text every line of which is missed by every line pattern. -/
inductive LinesMiss : Str → Prop where
  | last (p : Str) (hp : ∀ c ∈ p, isLineTerminator c = false)
      (hm : ∀ re ∈ lineRegexes, ∀ prev, re.matchAt prev p = none) : LinesMiss p
  | more (p : Str) (c : Char) (t : Str) (hp : ∀ c ∈ p, isLineTerminator c = false)
      (hm : ∀ re ∈ lineRegexes, ∀ prev, re.matchAt prev p = none)
      (hc : isLineTerminator c = true) (ht : LinesMiss t) : LinesMiss (p ++ c :: t)

/-- The text `\n\n`. -/
def blankLine : Str := ['\n', '\n']

/-- The tags that a line pattern wraps around a line. -/
def lineTags : List Str := [tagH3, tagH2, tagH1, tagLi]

/-- The tags that a pattern wraps around a captured text, within one line. -/
def elemTags : List Str := [tagH3, tagH2, tagH1, tagLi, tagCode]

/-- Text of one input line: no `<`, `>`, `*` and no line terminator. -/
def Raw (t : Str) : Prop :=
  ∀ c ∈ t, c ≠ '<' ∧ c ≠ '>' ∧ c ≠ '*' ∧ isLineTerminator c = false

/-- Text of one line after the code pass: characters of the input line and `code`
elements that hold characters of the input line. -/
inductive Flow : Str → Prop where
  | nil : Flow []
  | chr (c : Char) (s : Str) (hc : Raw [c]) (hs : Flow s) : Flow (c :: s)
  | code (x s : Str) (hx : Raw x) (hs : Flow s) : Flow (wrap tagCode x ++ s)

/-- What the proof needs to know of the texts that lines are made of. -/
structure BodyClass (B : Str → Prop) : Prop where
  noBreak : ∀ t, B t → ∀ c ∈ t, isLineTerminator c = false
  noStar : ∀ t, B t → '*' ∉ t
  nest : ∀ t, B t → ∀ st X, nestGo st none (t ++ X) = nestGo st none X
  tagged : ∀ t, B t → ∀ X, Tagged X → Tagged (t ++ X)
  dropPrefix : ∀ pre r, B (pre ++ r) → '<' ∉ pre → B r

/-- One line after the line passes: a text of the class `B`, or such a text wrapped in a
header or list-item element. -/
inductive Line (B : Str → Prop) : Str → Prop where
  | text (t : Str) (ht : B t) : Line B t
  | elem (tag t : Str) (htag : tag ∈ lineTags) (ht : B t) : Line B (wrap tag t)

/-- A text made of such lines, separated by single line terminators. -/
inductive Doc (B : Str → Prop) : Str → Prop where
  | last (l : Str) (hl : Line B l) : Doc B l
  | more (l : Str) (c : Char) (rest : Str) (hl : Line B l)
      (hc : isLineTerminator c = true) (hr : Doc B rest) : Doc B (l ++ c :: rest)

/-- What the proof needs to know of a line pattern: on a line it either fails, or it
matches the whole line, whatever follows the line, and captures the part after a
non-empty prefix that has no `<`. -/
structure LinePass (re : Regex) : Prop where
  isLine : IsLineRegex re
  split : ∀ l : Str, (∀ c ∈ l, isLineTerminator c = false) →
    (∀ prev, re.matchAt prev l = none) ∨
    (∃ pre r, l = pre ++ r ∧ pre ≠ [] ∧ '<' ∉ pre ∧
      ∀ prev t, atBol true prev = true → lineOf t = [] →
        re.matchAt prev (l ++ t) = some (r, l.length))

/-- An input with headers, lists, code spans, a rule and blank lines, but no `*`. -/
def blockInput : Str :=
  "# `a\n\n- x` y ``` `--`- `1. `\n--- z\n1. `y`\r\n## z".toList

/-! ## Lemmas on the matcher -/

theorem pushAll_len (st : MState) (p : Str) : (st.pushAll p).len = st.len + p.length := by
  induction p generalizing st with
  | nil => simp [MState.pushAll]
  | cons c tl ih => simp [MState.pushAll, ih, MState.push]; omega

theorem pushAll_capturing (st : MState) (p : Str) :
    (st.pushAll p).capturing = st.capturing := by
  induction p generalizing st with
  | nil => simp [MState.pushAll]
  | cons c tl ih => simp [MState.pushAll, ih, MState.push]

theorem pushAll_cap_off (st : MState) (p : Str) (h : st.capturing = false) :
    (st.pushAll p).cap = st.cap := by
  induction p generalizing st with
  | nil => simp [MState.pushAll]
  | cons c tl ih =>
    simp only [MState.pushAll]
    rw [ih _ (by simp [MState.push, h])]
    simp [MState.push, h]

theorem pushAll_cap_on (st : MState) (p : Str) (h : st.capturing = true) :
    (st.pushAll p).cap = p.reverse ++ st.cap := by
  induction p generalizing st with
  | nil => simp [MState.pushAll]
  | cons c tl ih =>
    simp only [MState.pushAll]
    rw [ih _ (by simp [MState.push, h])]
    simp [MState.push, h]

theorem pushAll_append (st : MState) (p q : Str) :
    st.pushAll (p ++ q) = (st.pushAll p).pushAll q := by
  induction p generalizing st with
  | nil => simp [MState.pushAll]
  | cons c tl ih => simp [MState.pushAll, ih]

theorem prevAfter_append (prev : Option Char) (p q : Str) :
    prevAfter prev (p ++ q) = prevAfter (prevAfter prev p) q := by
  induction p generalizing prev with
  | nil => simp [prevAfter]
  | cons c tl ih => simp [prevAfter, ih]

/-- A run of literals matches exactly when it is a prefix of the input. -/
theorem matchNodes_lits (ml : Bool) (p : Str) (ns : List Node) (st : MState) (inp : Str) :
    matchNodes ml (lits p ++ ns) st inp =
      if p <+: inp then matchNodes ml ns (st.pushAll p) (inp.drop p.length) else none := by
  induction p generalizing st inp with
  | nil => simp [lits, MState.pushAll]
  | cons c tl ih =>
    cases inp with
    | nil => simp [lits, matchNodes]
    | cons x xs =>
      have ih2 := ih (st.push x) xs
      simp only [lits] at ih2
      simp only [lits, List.map_cons, List.cons_append, matchNodes, CharSet.test, ih2,
        MState.pushAll, List.length_cons, List.drop_succ_cons]
      by_cases hx : x = c
      · subst hx
        simpa [List.cons_prefix_cons] using ih2
      · have : ¬ (c = x) := fun h => hx h.symm
        simp [List.cons_prefix_cons, hx, this]

/-- A pattern that starts with a literal fails where the input does not start with it. -/
theorem matchNodes_lit_head (ml : Bool) (c : Char) (ns : List Node) (st : MState)
    (inp : Str) (h : inp.head? ≠ some c) :
    matchNodes ml (Node.one (.lit c) :: ns) st inp = none := by
  cases inp with
  | nil => simp [matchNodes]
  | cons x xs =>
    have hx : x ≠ c := by simpa using h
    simp [matchNodes, CharSet.test, hx]

/-- The tail `(.*$)` always matches: it captures the rest of the current line. -/
theorem restOfLine_loop (inp : Str) (st : MState) (h : st.capturing = true) :
    starLoop .dot true (matchNodes true [.eol, .closeGroup]) inp st =
      some (st.cap.reverse ++ lineOf inp, st.len + (lineOf inp).length) := by
  induction inp generalizing st with
  | nil => simp [starLoop, matchNodes, atEol, lineOf]
  | cons c tl ih =>
    by_cases hc : isLineTerminator c = true
    · simp [starLoop, CharSet.test, hc, matchNodes, atEol, lineOf]
    · have hc2 : isLineTerminator c = false := by simpa using hc
      have h2 : (st.push c).capturing = true := by simp [MState.push, h]
      simp only [starLoop, CharSet.test, hc2, Bool.not_false, if_true, ih _ h2]
      simp [MState.push, h, lineOf, hc2, List.takeWhile_cons, Option.orElse]
      omega

theorem matchNodes_restOfLine (inp : Str) (st : MState) :
    matchNodes true restOfLine st inp =
      some (lineOf inp, st.len + (lineOf inp).length) := by
  unfold restOfLine
  rw [matchNodes, matchNodes, restOfLine_loop _ _ rfl]
  simp

/-- A line pattern `^p(.*$)` with a literal prefix `p` matches exactly at the start of a
line that begins with `p`, and captures the rest of that line. -/
theorem linePattern_matchAt (p : Str) (prev : Option Char) (inp : Str) :
    Regex.matchAt ⟨.bol :: lits p ++ restOfLine, true⟩ prev inp =
      if atBol true prev = true ∧ p <+: inp then
        some (lineOf (inp.drop p.length), p.length + (lineOf (inp.drop p.length)).length)
      else none := by
  unfold Regex.matchAt
  simp only [List.cons_append]
  rw [matchNodes]
  by_cases hb : atBol true prev = true
  · by_cases hp : p <+: inp
    · simp [hb, hp, matchNodes_lits, matchNodes_restOfLine, pushAll_len]
    · simp [hb, hp, matchNodes_lits]
  · simp [hb]

/-- A greedy loop whose continuation rejects every character of the set runs to the end
of the maximal run. -/
theorem starLoop_greedy_max (cs : CharSet) (k : MState → List Char → Option MatchResult)
    (hk : ∀ st c tl, cs.test c = true → k st (c :: tl) = none) (inp : Str) (st : MState) :
    starLoop cs true k inp st =
      k (st.pushAll (inp.takeWhile cs.test)) (inp.dropWhile cs.test) := by
  induction inp generalizing st with
  | nil => simp [starLoop, MState.pushAll]
  | cons c tl ih =>
    by_cases hc : cs.test c = true
    · simp [starLoop, hc, ih, hk st c tl hc, List.takeWhile_cons, List.dropWhile_cons,
        MState.pushAll, Option.orElse]
      cases k ((st.push c).pushAll (List.takeWhile cs.test tl)) (List.dropWhile cs.test tl) <;> rfl
    · simp [starLoop, hc, List.takeWhile_cons, List.dropWhile_cons, MState.pushAll]

/-- A lazy loop stops at the first position where its continuation succeeds; over a run
of accepted characters on which the continuation fails it runs to the end of the run. -/
theorem starLoop_lazy_run (cs : CharSet) (k : MState → List Char → Option MatchResult)
    (x y : Str) (hx : ∀ c ∈ x, cs.test c = true)
    (hk : ∀ st c tl, c ∈ x → k st (c :: tl) = none) (st : MState) :
    starLoop cs false k (x ++ y) st = starLoop cs false k y (st.pushAll x) := by
  induction x generalizing st with
  | nil => simp [MState.pushAll]
  | cons c tl ih =>
    have hc : cs.test c = true := hx c (List.mem_cons_self _ _)
    have ih2 := ih (fun d hd => hx d (List.mem_cons_of_mem _ hd))
      (fun st d tl2 hd => hk st d tl2 (List.mem_cons_of_mem _ hd)) (st.push c)
    simp [starLoop, hc, hk st c (tl ++ y) (List.mem_cons_self _ _), ih2, MState.pushAll,
      Option.orElse]

/-- A lazy loop takes nothing where its continuation succeeds at once. -/
theorem starLoop_lazy_stop (cs : CharSet) (k : MState → List Char → Option MatchResult)
    (y : Str) (st : MState) (r : MatchResult) (h : k st y = some r) :
    starLoop cs false k y st = some r := by
  cases y with
  | nil => simpa [starLoop] using h
  | cons c tl =>
    by_cases hc : cs.test c = true
    · simp [starLoop, hc, h, Option.orElse]
    · simp [starLoop, hc, h]

/-! ## Lemmas on the replacement scan -/

theorem replaceGo_miss_cons (re : Regex) (tpl : List RepPart) (c : Char) (tl : Str)
    (prev : Option Char) (h : re.matchAt prev (c :: tl) = none) :
    replaceGo re tpl (c :: tl) prev 0 = c :: replaceGo re tpl tl (some c) 0 := by
  simp [replaceGo, h]

theorem replaceGo_nil (re : Regex) (tpl : List RepPart) (prev : Option Char) (n : Nat)
    (h : re.matchAt prev [] = none) : replaceGo re tpl [] prev n = [] := by
  simp [replaceGo, h]

/-- Passing over the characters of a match. -/
theorem replaceGo_skip (re : Regex) (tpl : List RepPart) (a b : Str) (prev : Option Char) :
    replaceGo re tpl (a ++ b) prev a.length = replaceGo re tpl b (prevAfter prev a) 0 := by
  induction a generalizing prev with
  | nil => simp [prevAfter]
  | cons c tl ih => simp [replaceGo, prevAfter, ih]

/-- A non-empty match `a` at the current position is replaced by the expanded template,
and the scan resumes right after it. -/
theorem replaceGo_hit (re : Regex) (tpl : List RepPart) (a b cap : Str)
    (prev : Option Char) (ha : a ≠ [])
    (h : re.matchAt prev (a ++ b) = some (cap, a.length)) :
    replaceGo re tpl (a ++ b) prev 0 =
      expand tpl cap ++ replaceGo re tpl b (prevAfter prev a) 0 := by
  cases a with
  | nil => exact absurd rfl ha
  | cons c tl =>
    have h2 : re.matchAt prev (c :: (tl ++ b)) = some (cap, tl.length + 1) := by
      simpa using h
    show replaceGo re tpl (c :: (tl ++ b)) prev 0 = _
    rw [replaceGo, h2]
    simp only [prevAfter]
    rw [replaceGo_skip]

/-- A pattern that starts with a literal passes unchanged over text without it. -/
theorem replaceGo_firstLit (re : Regex) (tpl : List RepPart) (c : Char) (ns : List Node)
    (hre : re.nodes = Node.one (.lit c) :: ns) (p t : Str) (prev : Option Char)
    (hp : c ∉ p) :
    replaceGo re tpl (p ++ t) prev 0 = p ++ replaceGo re tpl t (prevAfter prev p) 0 := by
  induction p generalizing prev with
  | nil => simp [prevAfter]
  | cons x xs ih =>
    have hx : x ≠ c := fun h => hp (h ▸ List.mem_cons_self _ _)
    have hm : re.matchAt prev (x :: (xs ++ t)) = none := by
      unfold Regex.matchAt
      rw [hre]
      exact matchNodes_lit_head _ _ _ _ _ (by simpa using hx)
    simp only [List.cons_append, prevAfter]
    rw [replaceGo_miss_cons _ _ _ _ _ hm, ih _ (fun h => hp (List.mem_cons_of_mem _ h))]

/-- A pattern that starts with a literal fails on the empty input. -/
theorem matchAt_firstLit_nil (re : Regex) (c : Char) (ns : List Node)
    (hre : re.nodes = Node.one (.lit c) :: ns) (prev : Option Char) :
    re.matchAt prev [] = none := by
  unfold Regex.matchAt
  rw [hre]
  exact matchNodes_lit_head _ _ _ _ _ (by simp)

/-- A pattern that starts with a literal leaves text without that literal unchanged. -/
theorem replace_firstLit (re : Regex) (tpl : List RepPart) (c : Char) (ns : List Node)
    (hre : re.nodes = Node.one (.lit c) :: ns) (s : Str) (hs : c ∉ s) :
    replace re tpl s = s := by
  have h := replaceGo_firstLit re tpl c ns hre s [] none hs
  rw [List.append_nil] at h
  unfold replace
  rw [h, replaceGo_nil _ _ _ _ (matchAt_firstLit_nil re c ns hre _)]
  simp

/-! ## The line patterns -/

theorem lineOf_append_of_break (p t : Str) (hp : ∀ c ∈ p, isLineTerminator c = false)
    (ht : lineOf t = []) : lineOf (p ++ t) = p := by
  induction p with
  | nil => simpa using ht
  | cons c tl ih =>
    have hc := hp c (List.mem_cons_self _ _)
    simp only [lineOf, List.cons_append, List.takeWhile_cons, hc, Bool.not_false, if_true]
    congr 1
    exact ih (fun d hd => hp d (List.mem_cons_of_mem _ hd))

theorem lineOf_eq_self (p : Str) (hp : ∀ c ∈ p, isLineTerminator c = false) :
    lineOf p = p := by
  have h := lineOf_append_of_break p [] hp rfl
  simpa using h

/-- A line pattern passes unchanged over a line that it does not match. -/
theorem replaceGo_line (re : Regex) (hre : IsLineRegex re) (tpl : List RepPart)
    (p t : Str) (prev : Option Char) (hp : ∀ c ∈ p, isLineTerminator c = false)
    (ht : lineOf t = []) (hm : re.matchAt prev p = none) :
    replaceGo re tpl (p ++ t) prev 0 = p ++ replaceGo re tpl t (prevAfter prev p) 0 := by
  induction p generalizing prev with
  | nil => simp [prevAfter]
  | cons x xs ih =>
    have hx := hp x (List.mem_cons_self _ _)
    have hm2 : re.matchAt prev (x :: (xs ++ t)) = none := by
      apply hre.lineLocal
      have := lineOf_append_of_break (x :: xs) t hp ht
      simp only [List.cons_append] at this
      rw [this]
      exact hm
    simp only [List.cons_append, prevAfter]
    rw [replaceGo_miss_cons _ _ _ _ _ hm2,
      ih _ (fun d hd => hp d (List.mem_cons_of_mem _ hd)) (hre.anchored _ _ hx)]

/-- A line pattern copies a line terminator. -/
theorem replaceGo_line_break (re : Regex) (hre : IsLineRegex re) (tpl : List RepPart)
    (c : Char) (t : Str) (prev : Option Char) (hc : isLineTerminator c = true) :
    replaceGo re tpl (c :: t) prev 0 = c :: replaceGo re tpl t (some c) 0 := by
  apply replaceGo_miss_cons
  apply hre.lineLocal
  simp [lineOf, List.takeWhile_cons, hc, hre.atNil]

theorem prefix_takeWhile (f : Char → Bool) (p l : Str) (hp : ∀ c ∈ p, f c = true)
    (h : p <+: l) : p <+: l.takeWhile f := by
  induction p generalizing l with
  | nil => exact List.nil_prefix
  | cons c tl ih =>
    cases l with
    | nil => simp at h
    | cons x xs =>
      rw [List.cons_prefix_cons] at h
      obtain ⟨h1, h2⟩ := h
      subst h1
      have hc := hp c (List.mem_cons_self _ _)
      simp only [List.takeWhile_cons, hc, if_true, List.cons_prefix_cons, true_and]
      exact ih _ (fun d hd => hp d (List.mem_cons_of_mem _ hd)) h2

/-- The patterns `^p(.*$)` with a non-empty literal prefix free of line terminators are
line patterns. -/
theorem linePattern_isLineRegex (p : Str) (hne : p ≠ [])
    (hp : ∀ c ∈ p, isLineTerminator c = false) :
    IsLineRegex ⟨.bol :: lits p ++ restOfLine, true⟩ where
  anchored := by
    intro c inp hc
    rw [linePattern_matchAt]
    simp [atBol, hc]
  atNil := by
    intro prev
    rw [linePattern_matchAt]
    simp [hne]
  lineLocal := by
    intro prev inp h
    rw [linePattern_matchAt] at h ⊢
    by_cases hc : atBol true prev = true ∧ p <+: inp
    · have h3 : p <+: lineOf inp :=
        prefix_takeWhile _ p inp (fun c hc2 => by simp [hp c hc2]) hc.2
      simp [hc.1, h3] at h
    · simp [hc]

/-- The pattern `^\d+\. (.*$)` matches exactly at the start of a line that begins with
digits followed by `. `, and captures the rest of the line. -/
theorem reNumbered_matchAt (prev : Option Char) (inp : Str) :
    reNumbered.matchAt prev inp =
      if atBol true prev = true ∧ beginsNumbered inp = true then
        some (lineOf ((inp.dropWhile isAsciiDigit).drop 2),
          (inp.takeWhile isAsciiDigit).length + 2 +
            (lineOf ((inp.dropWhile isAsciiDigit).drop 2)).length)
      else none := by
  unfold Regex.matchAt reNumbered
  simp only [List.cons_append]
  rw [matchNodes]
  by_cases hb : atBol true prev = true
  swap
  · simp [hb]
  simp only [hb, if_true, true_and]
  cases inp with
  | nil => simp [beginsNumbered, matchNodes]
  | cons c tl =>
    rw [matchNodes]
    by_cases hc : isAsciiDigit c = true
    swap
    · simp [beginsNumbered, CharSet.test, hc, List.takeWhile_cons]
    have hk : ∀ (st : MState) (d : Char) (r : Str), CharSet.digit.test d = true →
        matchNodes true (lits ['.', ' '] ++ restOfLine) st (d :: r) = none := by
      intro st d r hd
      rw [matchNodes_lits]
      have : d ≠ '.' := by
        intro h
        subst h
        simp [CharSet.test, isAsciiDigit] at hd
      simp [List.cons_prefix_cons, this.symm]
    simp only [CharSet.test, hc, if_true]
    rw [starLoop_greedy_max _ _ hk, matchNodes_lits]
    have hte : CharSet.digit.test = isAsciiDigit := by funext x; rfl
    rw [hte]
    by_cases hp : ['.', ' '] <+: List.dropWhile isAsciiDigit tl
    · simp [beginsNumbered, hc, hp, List.takeWhile_cons, List.dropWhile_cons,
        matchNodes_restOfLine, pushAll_len, MState.push]
      omega
    · simp [beginsNumbered, hc, hp, List.takeWhile_cons, List.dropWhile_cons]

theorem digit_not_lineTerminator (c : Char) (h : isAsciiDigit c = true) :
    isLineTerminator c = false := by
  simp only [isAsciiDigit, Bool.and_eq_true, decide_eq_true_eq] at h
  simp only [isLineTerminator, Bool.or_eq_false_iff, beq_eq_false_iff_ne]
  refine ⟨⟨⟨?_, ?_⟩, ?_⟩, ?_⟩ <;> (intro hc; subst hc; revert h; decide)

theorem takeWhile_digit_lineOf (inp : Str) :
    (lineOf inp).takeWhile isAsciiDigit = inp.takeWhile isAsciiDigit := by
  induction inp with
  | nil => simp [lineOf]
  | cons c tl ih =>
    by_cases hc : isAsciiDigit c = true
    · have := digit_not_lineTerminator c hc
      simp only [lineOf] at ih
      simp [lineOf, List.takeWhile_cons, hc, this, ih]
    · by_cases hl : isLineTerminator c = true
      · simp [lineOf, List.takeWhile_cons, hc, hl]
      · simp [lineOf, List.takeWhile_cons, hc, hl]

theorem dropWhile_digit_lineOf (inp : Str) :
    (lineOf inp).dropWhile isAsciiDigit = lineOf (inp.dropWhile isAsciiDigit) := by
  induction inp with
  | nil => simp [lineOf]
  | cons c tl ih =>
    by_cases hc : isAsciiDigit c = true
    · have := digit_not_lineTerminator c hc
      simp only [lineOf] at ih
      simp [lineOf, List.takeWhile_cons, List.dropWhile_cons, hc, this, ih]
    · by_cases hl : isLineTerminator c = true
      · simp [lineOf, List.takeWhile_cons, List.dropWhile_cons, hc, hl]
      · simp [lineOf, List.takeWhile_cons, List.dropWhile_cons, hc, hl]

theorem beginsNumbered_lineOf (inp : Str) (h : beginsNumbered inp = true) :
    beginsNumbered (lineOf inp) = true := by
  simp only [beginsNumbered, Bool.and_eq_true, decide_eq_true_eq] at h ⊢
  rw [takeWhile_digit_lineOf, dropWhile_digit_lineOf]
  refine ⟨h.1, prefix_takeWhile _ _ _ ?_ h.2⟩
  intro c hc
  simp only [List.mem_cons, List.mem_singleton, List.not_mem_nil, or_false] at hc
  rcases hc with hc | hc <;> (subst hc; decide)

theorem reNumbered_isLineRegex : IsLineRegex reNumbered where
  anchored := by
    intro c inp hc
    rw [reNumbered_matchAt]
    simp [atBol, hc]
  atNil := by
    intro prev
    rw [reNumbered_matchAt]
    simp [beginsNumbered]
  lineLocal := by
    intro prev inp h
    rw [reNumbered_matchAt] at h ⊢
    by_cases hc : atBol true prev = true ∧ beginsNumbered inp = true
    · simp [hc.1, beginsNumbered_lineOf inp hc.2] at h
    · simp [hc]

theorem reH3_isLineRegex : IsLineRegex reH3 :=
  linePattern_isLineRegex _ (by simp) (by decide)

theorem reH2_isLineRegex : IsLineRegex reH2 :=
  linePattern_isLineRegex _ (by simp) (by decide)

theorem reH1_isLineRegex : IsLineRegex reH1 :=
  linePattern_isLineRegex _ (by simp) (by decide)

theorem reBullet_isLineRegex : IsLineRegex reBullet :=
  linePattern_isLineRegex _ (by simp) (by decide)

/-! ## The inline patterns -/

/-- An inline pattern `d(.*?)d` with delimiter `d = c :: ds` matches `d ++ x ++ d` when
`x` has neither `c` nor a line terminator, and captures `x`. -/
theorem inline_matchAt (c : Char) (ds x rest : Str) (prev : Option Char)
    (hx : c ∉ x) (hl : ∀ a ∈ x, isLineTerminator a = false) :
    Regex.matchAt ⟨lits (c :: ds) ++ lazyGroup ++ lits (c :: ds), false⟩ prev
        ((c :: ds) ++ x ++ ((c :: ds) ++ rest)) =
      some (x, ((c :: ds) ++ x ++ (c :: ds)).length) := by
  unfold Regex.matchAt
  simp only [List.append_assoc]
  rw [matchNodes_lits, if_pos (List.prefix_append _ _), List.drop_left]
  show matchNodes false
    (Node.openGroup :: Node.star .dot false :: Node.closeGroup :: lits (c :: ds)) _ _ = _
  rw [matchNodes, matchNodes]
  have hk : ∀ (st : MState) (a : Char) (tl : Str), a ∈ x →
      matchNodes false (Node.closeGroup :: lits (c :: ds)) st (a :: tl) = none := by
    intro st a tl ha
    rw [matchNodes]
    have hac : a ≠ c := fun h => hx (h ▸ ha)
    exact matchNodes_lit_head _ _ _ _ _ (by simpa using hac)
  rw [starLoop_lazy_run _ _ x _ (fun a ha => by simp [CharSet.test, hl a ha]) hk]
  apply starLoop_lazy_stop
  rw [matchNodes]
  have h := matchNodes_lits false (c :: ds) []
  simp only [List.append_nil] at h
  rw [h, if_pos (List.prefix_append _ _), matchNodes]
  simp [pushAll_len, pushAll_cap_off, pushAll_cap_on, pushAll_capturing]
  omega

/-! ## The horizontal-rule pattern -/

theorem reRule_matchAt (prev : Option Char) (inp : Str) :
    reRule.matchAt prev inp = if dashes <+: inp then some ([], 3) else none := by
  unfold Regex.matchAt reRule
  have h := matchNodes_lits false dashes []
  simp only [List.append_nil] at h
  show matchNodes false (lits dashes) _ inp = _
  rw [h]
  by_cases hp : dashes <+: inp
  · simp [hp, matchNodes, pushAll_len, pushAll_cap_off, dashes]
  · simp [hp]

/-- The rule pattern passes unchanged over text without `---` that is not followed by a
hyphen. -/
theorem replaceGo_rule_seg (tpl : List RepPart) (p t : Str) (prev : Option Char)
    (hp : ¬ dashes <:+: p) (ht : t.head? ≠ some '-') :
    replaceGo reRule tpl (p ++ t) prev 0 =
      p ++ replaceGo reRule tpl t (prevAfter prev p) 0 := by
  induction p generalizing prev with
  | nil => simp [prevAfter]
  | cons x xs ih =>
    have hm : reRule.matchAt prev (x :: (xs ++ t)) = none := by
      rw [reRule_matchAt]
      have : ¬ dashes <+: x :: (xs ++ t) := by
        intro hpre
        match xs, hp, hpre with
        | [], _, hpre =>
          cases t with
          | nil => simp [dashes] at hpre
          | cons a t2 =>
            simp only [dashes, List.nil_append, List.cons_prefix_cons] at hpre
            exact ht (by rw [← hpre.2.1]; rfl)
        | [y], _, hpre =>
          cases t with
          | nil => simp [dashes] at hpre
          | cons a t2 =>
            simp only [dashes, List.cons_append, List.nil_append, List.cons_prefix_cons] at hpre
            exact ht (by rw [← hpre.2.2.1]; rfl)
        | y :: z :: w, hp, hpre =>
          apply hp
          simp only [dashes, List.cons_append, List.cons_prefix_cons] at hpre
          obtain ⟨h1, h2, h3, _⟩ := hpre
          subst h1 h2 h3
          exact (List.prefix_iff_eq_append.mpr (by simp [dashes])).isInfix
      simp [this]
    have hxs : ¬ dashes <:+: xs := fun h => hp (h.trans (List.suffix_cons x xs).isInfix)
    simp only [List.cons_append, prevAfter]
    rw [replaceGo_miss_cons _ _ _ _ _ hm, ih _ hxs]

/-! ## Single passes over one line -/

theorem expand_wrapTpl (tag cap : Str) : expand (wrapTpl tag) cap = wrap tag cap := by
  simp [expand, wrapTpl, wrap]

/-- A pattern of literals only matches exactly where they are a prefix of the input. -/
theorem litsPattern_matchAt (d : Str) (prev : Option Char) (inp : Str) :
    Regex.matchAt ⟨lits d, false⟩ prev inp =
      if d <+: inp then some ([], d.length) else none := by
  unfold Regex.matchAt
  have h := matchNodes_lits false d []
  simp only [List.append_nil] at h
  show matchNodes false (lits d) _ inp = _
  rw [h]
  by_cases hp : d <+: inp
  · simp [hp, matchNodes, pushAll_len, pushAll_cap_off]
  · simp [hp]

/-- A line pattern leaves a single line that it does not match unchanged. -/
theorem replace_line_single (re : Regex) (hre : IsLineRegex re) (tpl : List RepPart)
    (W : Str) (hW : ∀ c ∈ W, isLineTerminator c = false)
    (hm : re.matchAt none W = none) : replace re tpl W = W := by
  have h := replaceGo_line re hre tpl W [] none hW rfl hm
  rw [List.append_nil] at h
  unfold replace
  rw [h, replaceGo_nil _ _ _ _ (hre.atNil _)]
  simp

theorem replace_linePattern_single (p : Str) (hne : p ≠ [])
    (hp : ∀ c ∈ p, isLineTerminator c = false) (tpl : List RepPart)
    (W : Str) (hW : ∀ c ∈ W, isLineTerminator c = false) (h : ¬ p <+: W) :
    replace ⟨.bol :: lits p ++ restOfLine, true⟩ tpl W = W := by
  apply replace_line_single _ (linePattern_isLineRegex p hne hp) _ _ hW
  rw [linePattern_matchAt]
  simp [h]

theorem replace_numbered_single (tpl : List RepPart)
    (W : Str) (hW : ∀ c ∈ W, isLineTerminator c = false) (h : beginsNumbered W = false) :
    replace reNumbered tpl W = W := by
  apply replace_line_single _ reNumbered_isLineRegex _ _ hW
  rw [reNumbered_matchAt]
  simp [h]

/-- A line pattern turns a single line that begins with its prefix into the wrapped rest
of the line. -/
theorem replace_linePattern_hit (p : Str) (hne : p ≠ [])
    (hp : ∀ c ∈ p, isLineTerminator c = false) (tag t : Str)
    (ht : ∀ c ∈ t, isLineTerminator c = false) :
    replace ⟨.bol :: lits p ++ restOfLine, true⟩ (wrapTpl tag) (p ++ t) = wrap tag t := by
  have hre := linePattern_isLineRegex p hne hp
  have hm : Regex.matchAt ⟨.bol :: lits p ++ restOfLine, true⟩ none ((p ++ t) ++ []) =
      some (t, (p ++ t).length) := by
    rw [linePattern_matchAt]
    simp [atBol, lineOf_eq_self t ht]
  have h := replaceGo_hit _ (wrapTpl tag) (p ++ t) [] t none (by simp [hne]) hm
  rw [List.append_nil] at h
  unfold replace
  rw [h, replaceGo_nil _ _ _ _ (hre.atNil _), expand_wrapTpl]
  simp

/-- The numbered-item pattern turns a single line `n. t` into the wrapped `t`. -/
theorem replace_numbered_hit (n t : Str) (hne : n ≠ [])
    (hn : ∀ c ∈ n, isAsciiDigit c = true) (tag : Str)
    (ht : ∀ c ∈ t, isLineTerminator c = false) :
    replace reNumbered (wrapTpl tag) (n ++ ['.', ' '] ++ t) = wrap tag t := by
  have htk : (n ++ ['.', ' '] ++ t).takeWhile isAsciiDigit = n := by
    rw [List.append_assoc, List.takeWhile_append_of_pos hn]
    simp [List.takeWhile_cons, isAsciiDigit]
  have hdk : (n ++ ['.', ' '] ++ t).dropWhile isAsciiDigit = ['.', ' '] ++ t := by
    rw [List.append_assoc, List.dropWhile_append_of_pos hn]
    simp [List.dropWhile_cons, isAsciiDigit]
  have hb : beginsNumbered (n ++ ['.', ' '] ++ t) = true := by
    simp only [beginsNumbered, htk, hdk]
    cases n with
    | nil => exact absurd rfl hne
    | cons a as => simp
  have hm : reNumbered.matchAt none ((n ++ ['.', ' '] ++ t) ++ []) =
      some (t, (n ++ ['.', ' '] ++ t).length) := by
    rw [List.append_nil, reNumbered_matchAt, htk, hdk, if_pos ⟨rfl, hb⟩]
    simp [lineOf_eq_self t ht]
    omega
  have h := replaceGo_hit _ (wrapTpl tag) (n ++ ['.', ' '] ++ t) [] t none (by simp) hm
  rw [List.append_nil] at h
  unfold replace
  rw [h, replaceGo_nil _ _ _ _ (reNumbered_isLineRegex.atNil _), expand_wrapTpl]
  simp

/-- An inline pattern turns `d x d` into the wrapped `x`. -/
theorem replace_inline_hit (c : Char) (ds x tag : Str)
    (hx : c ∉ x) (hl : ∀ a ∈ x, isLineTerminator a = false) :
    replace ⟨lits (c :: ds) ++ lazyGroup ++ lits (c :: ds), false⟩ (wrapTpl tag)
        ((c :: ds) ++ x ++ (c :: ds)) = wrap tag x := by
  have hm := inline_matchAt c ds x [] none hx hl
  rw [List.append_nil] at hm
  have hm2 : Regex.matchAt ⟨lits (c :: ds) ++ lazyGroup ++ lits (c :: ds), false⟩ none
      (((c :: ds) ++ x ++ (c :: ds)) ++ []) =
      some (x, ((c :: ds) ++ x ++ (c :: ds)).length) := by
    rw [List.append_nil]
    exact hm
  have h := replaceGo_hit _ (wrapTpl tag) ((c :: ds) ++ x ++ (c :: ds)) [] x none
    (by simp) hm2
  rw [List.append_nil] at h
  unfold replace
  rw [h, replaceGo_nil _ _ _ _ (matchAt_firstLit_nil _ c _ rfl _), expand_wrapTpl]
  simp

/-- The rule pattern leaves `a ++ t ++ b` unchanged when `a` and `b` have no hyphen and
`t` has no `---`. -/
theorem replace_rule_wrapped (tpl : List RepPart) (a t b : Str)
    (ha : '-' ∉ a) (hb : '-' ∉ b) (ht : ¬ dashes <:+: t) :
    replace reRule tpl (a ++ t ++ b) = a ++ t ++ b := by
  unfold replace
  have hbh : b.head? ≠ some '-' := by
    cases b with
    | nil => simp
    | cons x xs =>
      intro h
      apply hb
      simp only [List.head?_cons, Option.some.injEq] at h
      rw [h]
      exact List.mem_cons_self _ _
  rw [List.append_assoc, replaceGo_firstLit reRule tpl '-' _ rfl a _ _ ha,
    replaceGo_rule_seg tpl t b _ ht hbh]
  have h := replaceGo_firstLit reRule tpl '-' _ rfl b [] (prevAfter (prevAfter none a) t) hb
  rw [List.append_nil] at h
  rw [h, replaceGo_nil _ _ _ _ (matchAt_firstLit_nil _ '-' _ rfl _)]
  simp

/-! ## Plain text and inert lines -/

theorem pass_h3 (tpl : List RepPart) (W : Str) (hW : ∀ c ∈ W, isLineTerminator c = false)
    (h : ¬ ['#', '#', '#', ' '] <+: W) : replace reH3 tpl W = W :=
  replace_linePattern_single _ (by simp) (by decide) tpl W hW h

theorem pass_h2 (tpl : List RepPart) (W : Str) (hW : ∀ c ∈ W, isLineTerminator c = false)
    (h : ¬ ['#', '#', ' '] <+: W) : replace reH2 tpl W = W :=
  replace_linePattern_single _ (by simp) (by decide) tpl W hW h

theorem pass_h1 (tpl : List RepPart) (W : Str) (hW : ∀ c ∈ W, isLineTerminator c = false)
    (h : ¬ ['#', ' '] <+: W) : replace reH1 tpl W = W :=
  replace_linePattern_single _ (by simp) (by decide) tpl W hW h

theorem pass_bullet (tpl : List RepPart) (W : Str)
    (hW : ∀ c ∈ W, isLineTerminator c = false)
    (h : ¬ ['-', ' '] <+: W) : replace reBullet tpl W = W :=
  replace_linePattern_single _ (by simp) (by decide) tpl W hW h

theorem pass_bold (tpl : List RepPart) (W : Str) (h : '*' ∉ W) :
    replace reBold tpl W = W :=
  replace_firstLit reBold tpl '*' _ rfl W h

theorem pass_italic (tpl : List RepPart) (W : Str) (h : '*' ∉ W) :
    replace reItalic tpl W = W :=
  replace_firstLit reItalic tpl '*' _ rfl W h

theorem pass_code (tpl : List RepPart) (W : Str) (h : '`' ∉ W) :
    replace reCode tpl W = W :=
  replace_firstLit reCode tpl '`' _ rfl W h

theorem pass_blank (tpl : List RepPart) (W : Str) (h : '\n' ∉ W) :
    replace reBlankLine tpl W = W :=
  replace_firstLit reBlankLine tpl '\n' _ rfl W h

theorem pass_newline (tpl : List RepPart) (W : Str) (h : '\n' ∉ W) :
    replace reNewline tpl W = W :=
  replace_firstLit reNewline tpl '\n' _ rfl W h

theorem newline_not_mem (W : Str) (hW : ∀ c ∈ W, isLineTerminator c = false) :
    '\n' ∉ W := by
  intro h
  have := hW _ h
  revert this
  decide

theorem Inert.h3 {W : Str} (h : Inert W) (tpl : List RepPart) : replace reH3 tpl W = W :=
  pass_h3 tpl W h.noBreak (by have := h.noBlock; simp [beginsBlock] at this; tauto)

theorem Inert.h2 {W : Str} (h : Inert W) (tpl : List RepPart) : replace reH2 tpl W = W :=
  pass_h2 tpl W h.noBreak (by have := h.noBlock; simp [beginsBlock] at this; tauto)

theorem Inert.h1 {W : Str} (h : Inert W) (tpl : List RepPart) : replace reH1 tpl W = W :=
  pass_h1 tpl W h.noBreak (by have := h.noBlock; simp [beginsBlock] at this; tauto)

theorem Inert.bullet {W : Str} (h : Inert W) (tpl : List RepPart) :
    replace reBullet tpl W = W :=
  pass_bullet tpl W h.noBreak (by have := h.noBlock; simp [beginsBlock] at this; tauto)

theorem Inert.numbered {W : Str} (h : Inert W) (tpl : List RepPart) :
    replace reNumbered tpl W = W :=
  replace_numbered_single tpl W h.noBreak
    (by have := h.noBlock; simp [beginsBlock] at this; tauto)

theorem Inert.bold {W : Str} (h : Inert W) (tpl : List RepPart) :
    replace reBold tpl W = W := pass_bold tpl W h.noStar

theorem Inert.italic {W : Str} (h : Inert W) (tpl : List RepPart) :
    replace reItalic tpl W = W := pass_italic tpl W h.noStar

theorem Inert.code {W : Str} (h : Inert W) (tpl : List RepPart) :
    replace reCode tpl W = W := pass_code tpl W h.noTick

theorem Inert.blank {W : Str} (h : Inert W) (tpl : List RepPart) :
    replace reBlankLine tpl W = W := pass_blank tpl W (newline_not_mem W h.noBreak)

theorem Inert.newline {W : Str} (h : Inert W) (tpl : List RepPart) :
    replace reNewline tpl W = W := pass_newline tpl W (newline_not_mem W h.noBreak)

/-- Plain text that begins no block is inert. -/
theorem plain_inert (s : Str) (hs : Plain s) (hb : beginsBlock s = false) : Inert s where
  noBreak := hs.1
  noStar := hs.2.1
  noTick := hs.2.2.1
  noBlock := hb
  rule := fun tpl => by
    have h := replace_rule_wrapped tpl [] s [] (by simp) (by simp) hs.2.2.2
    simpa using h

theorem mem_wrap (c : Char) (tag t : Str) :
    c ∈ wrap tag t ↔ c = '<' ∨ c = '>' ∨ c = '/' ∨ c ∈ tag ∨ c ∈ t := by
  simp only [wrap, List.mem_append, List.mem_cons, List.mem_singleton, List.not_mem_nil,
    or_false]
  tauto

/-- Wrapped plain text is inert. -/
theorem wrap_inert (tag t : Str) (htag : SafeTag tag) (ht : Plain t) :
    Inert (wrap tag t) where
  noBreak := by
    intro c hc
    rw [mem_wrap] at hc
    rcases hc with hc | hc | hc | hc | hc
    · subst hc; decide
    · subst hc; decide
    · subst hc; decide
    · exact (htag c hc).1
    · exact ht.1 c hc
  noStar := by
    intro hc
    rw [mem_wrap] at hc
    rcases hc with hc | hc | hc | hc | hc
    · revert hc; decide
    · revert hc; decide
    · revert hc; decide
    · exact (htag _ hc).2.1 rfl
    · exact ht.2.1 hc
  noTick := by
    intro hc
    rw [mem_wrap] at hc
    rcases hc with hc | hc | hc | hc | hc
    · revert hc; decide
    · revert hc; decide
    · revert hc; decide
    · exact (htag _ hc).2.2.1 rfl
    · exact ht.2.2.1 hc
  noBlock := by
    simp [wrap, beginsBlock, beginsNumbered, List.takeWhile_cons, isAsciiDigit]
  rule := fun tpl => by
    have h := replace_rule_wrapped tpl (['<'] ++ tag ++ ['>']) t (['<', '/'] ++ tag ++ ['>'])
      (by
        intro hc
        simp only [List.mem_append, List.mem_cons, List.mem_singleton, List.not_mem_nil,
          or_false] at hc
        rcases hc with (hc | hc) | hc
        · revert hc; decide
        · exact (htag _ hc).2.2.2 rfl
        · revert hc; decide)
      (by
        intro hc
        simp only [List.mem_append, List.mem_cons, List.mem_singleton, List.not_mem_nil,
          or_false] at hc
        rcases hc with ((hc | hc) | hc) | hc
        · revert hc; decide
        · revert hc; decide
        · exact (htag _ hc).2.2.2 rfl
        · revert hc; decide)
      ht.2.2.2
    simpa [wrap, List.append_assoc] using h

/-- An inert line goes through the whole chain unchanged. -/
theorem formatHtml_inert (W : Str) (h : Inert W) : formatHtml W = W := by
  unfold formatHtml
  rw [h.h3, h.h2, h.h1, h.bold, h.italic, h.code, h.bullet, h.numbered, h.blank, h.newline,
    h.rule]

theorem safeTag_h1 : SafeTag tagH1 := by decide
theorem safeTag_h2 : SafeTag tagH2 := by decide
theorem safeTag_h3 : SafeTag tagH3 := by decide
theorem safeTag_strong : SafeTag tagStrong := by decide
theorem safeTag_em : SafeTag tagEm := by decide
theorem safeTag_code : SafeTag tagCode := by decide
theorem safeTag_li : SafeTag tagLi := by decide

theorem hit_h3 (t : Str) (ht : ∀ c ∈ t, isLineTerminator c = false) :
    replace reH3 (wrapTpl tagH3) (['#', '#', '#', ' '] ++ t) = wrap tagH3 t :=
  replace_linePattern_hit _ (by simp) (by decide) tagH3 t ht

theorem hit_h2 (t : Str) (ht : ∀ c ∈ t, isLineTerminator c = false) :
    replace reH2 (wrapTpl tagH2) (['#', '#', ' '] ++ t) = wrap tagH2 t :=
  replace_linePattern_hit _ (by simp) (by decide) tagH2 t ht

theorem hit_h1 (t : Str) (ht : ∀ c ∈ t, isLineTerminator c = false) :
    replace reH1 (wrapTpl tagH1) (['#', ' '] ++ t) = wrap tagH1 t :=
  replace_linePattern_hit _ (by simp) (by decide) tagH1 t ht

theorem hit_bullet (t : Str) (ht : ∀ c ∈ t, isLineTerminator c = false) :
    replace reBullet (wrapTpl tagLi) (['-', ' '] ++ t) = wrap tagLi t :=
  replace_linePattern_hit _ (by simp) (by decide) tagLi t ht

/-- Prefixing characters that are not line terminators keeps a line free of them. -/
theorem noBreak_append (a t : Str) (ha : ∀ c ∈ a, isLineTerminator c = false)
    (ht : ∀ c ∈ t, isLineTerminator c = false) :
    ∀ c ∈ a ++ t, isLineTerminator c = false := by
  intro c hc
  rcases List.mem_append.mp hc with h | h
  · exact ha c h
  · exact ht c h

/-! ## The claims on `formatContent` -/

/-- C1 (as stated, refuted): in `formatContent("# Title\n**bold** text")` no paragraph
element opens after the header element: the only `<p>` is the very first text of the
output, before the header. -/
theorem C1_no_paragraph_after_header :
    ¬ HeaderThenParagraph (formatContent (some "# Title\n**bold** text".toList)) := by
  have hout : formatContent (some "# Title\n**bold** text".toList) = exampleOutput := by
    decide
  rw [hout]
  rintro ⟨a, b, c, d, e, h⟩
  have hno : ¬ "<p>".toList <:+: exampleOutput.drop 1 := by decide
  apply hno
  rw [h]
  cases a with
  | nil =>
    exact ⟨"h1>Title</h1>".toList ++ b,
      c ++ "<strong>bold</strong>".toList ++ d ++ "</p>".toList ++ e, by simp⟩
  | cons x xs =>
    exact ⟨xs ++ "<h1>Title</h1>".toList ++ b,
      c ++ "<strong>bold</strong>".toList ++ d ++ "</p>".toList ++ e, by simp⟩

/-- C1 (amended): `formatContent("# Title\n**bold** text")` is exactly
`<p><h1>Title</h1><br/><strong>bold</strong> text</p>`: one paragraph element that holds
the header element with `Title`, a line break and then the bold element wrapping exactly
`bold`. -/
theorem C1_example_output :
    formatContent (some "# Title\n**bold** text".toList) =
      "<p><h1>Title</h1><br/><strong>bold</strong> text</p>".toList := by
  decide

theorem format_h1 (t : Str) (ht : Plain t) :
    formatHtml (['#', ' '] ++ t) = wrap tagH1 t := by
  have hW : ∀ c ∈ ['#', ' '] ++ t, isLineTerminator c = false :=
    noBreak_append _ _ (by decide) ht.1
  have hi := wrap_inert tagH1 t safeTag_h1 ht
  unfold formatHtml
  rw [pass_h3 _ _ hW (by simp [List.cons_prefix_cons]),
    pass_h2 _ _ hW (by simp [List.cons_prefix_cons]), hit_h1 t ht.1,
    hi.bold, hi.italic, hi.code, hi.bullet, hi.numbered, hi.blank, hi.newline, hi.rule]

theorem format_h2 (t : Str) (ht : Plain t) :
    formatHtml (['#', '#', ' '] ++ t) = wrap tagH2 t := by
  have hW : ∀ c ∈ ['#', '#', ' '] ++ t, isLineTerminator c = false :=
    noBreak_append _ _ (by decide) ht.1
  have hi := wrap_inert tagH2 t safeTag_h2 ht
  unfold formatHtml
  rw [pass_h3 _ _ hW (by simp [List.cons_prefix_cons]), hit_h2 t ht.1,
    hi.h1, hi.bold, hi.italic, hi.code, hi.bullet, hi.numbered, hi.blank, hi.newline,
    hi.rule]

theorem format_h3 (t : Str) (ht : Plain t) :
    formatHtml (['#', '#', '#', ' '] ++ t) = wrap tagH3 t := by
  have hi := wrap_inert tagH3 t safeTag_h3 ht
  unfold formatHtml
  rw [hit_h3 t ht.1, hi.h2,
    hi.h1, hi.bold, hi.italic, hi.code, hi.bullet, hi.numbered, hi.blank, hi.newline,
    hi.rule]

/-- C2: for every `t` without line terminator, `*`, backtick or `---`, the header lines
`# t`, `## t` and `### t` are rendered as `<p><h1>t</h1></p>`, `<p><h2>t</h2></p>` and
`<p><h3>t</h3></p>`. -/
theorem C2_headers_by_level (t : Str) (ht : Plain t) :
    formatContent (some ("# ".toList ++ t)) = "<p><h1>".toList ++ t ++ "</h1></p>".toList ∧
    formatContent (some ("## ".toList ++ t)) = "<p><h2>".toList ++ t ++ "</h2></p>".toList ∧
    formatContent (some ("### ".toList ++ t)) =
      "<p><h3>".toList ++ t ++ "</h3></p>".toList := by
  have e1 := format_h1 t ht
  have e2 := format_h2 t ht
  have e3 := format_h3 t ht
  simp only [List.cons_append, List.nil_append] at e1 e2 e3
  refine ⟨?_, ?_, ?_⟩
  · simp [formatContent, e1, wrap, pOpen, pClose, tagH1]
  · simp [formatContent, e2, wrap, pOpen, pClose, tagH2]
  · simp [formatContent, e3, wrap, pOpen, pClose, tagH3]

/-- C2 at `t = "Title"`. -/
theorem C2_headers_by_level_witness :
    Plain "Title".toList ∧
    (formatContent (some ("# ".toList ++ "Title".toList)) =
        "<p><h1>".toList ++ "Title".toList ++ "</h1></p>".toList ∧
      formatContent (some ("## ".toList ++ "Title".toList)) =
        "<p><h2>".toList ++ "Title".toList ++ "</h2></p>".toList ∧
      formatContent (some ("### ".toList ++ "Title".toList)) =
        "<p><h3>".toList ++ "Title".toList ++ "</h3></p>".toList) :=
  ⟨by decide, C2_headers_by_level "Title".toList (by decide)⟩

/-- An inline pattern fails where the input does not start with its delimiter. -/
theorem inline_miss (d : Str) (prev : Option Char) (inp : Str) (h : ¬ d <+: inp) :
    Regex.matchAt ⟨lits d ++ lazyGroup ++ lits d, false⟩ prev inp = none := by
  unfold Regex.matchAt
  simp only [List.append_assoc]
  rw [matchNodes_lits, if_neg h]

theorem star_not_mem_digits (c : Char) (n : Str) (hn : ∀ a ∈ n, isAsciiDigit a = true)
    (hc : isAsciiDigit c = false) : c ∉ n := by
  intro h
  rw [hn c h] at hc
  exact absurd hc (by simp)

theorem format_bold (x : Str) (hx : Plain x) :
    formatHtml (['*', '*'] ++ x ++ ['*', '*']) = wrap tagStrong x := by
  have hW : ∀ c ∈ ['*', '*'] ++ x ++ ['*', '*'], isLineTerminator c = false :=
    noBreak_append _ _ (noBreak_append _ _ (by decide) hx.1) (by decide)
  have hi := wrap_inert tagStrong x safeTag_strong hx
  have hit : replace reBold (wrapTpl tagStrong) (['*', '*'] ++ x ++ ['*', '*']) =
      wrap tagStrong x := replace_inline_hit '*' ['*'] x tagStrong hx.2.1 hx.1
  unfold formatHtml
  rw [pass_h3 _ _ hW (by simp [List.cons_prefix_cons]),
    pass_h2 _ _ hW (by simp [List.cons_prefix_cons]),
    pass_h1 _ _ hW (by simp [List.cons_prefix_cons]), hit,
    hi.italic, hi.code, hi.bullet, hi.numbered, hi.blank, hi.newline, hi.rule]

/-- The bold pattern finds nothing in `*x*` when `x` has no `*`. -/
theorem bold_pass_italic (tpl : List RepPart) (x : Str) (hx : '*' ∉ x) :
    replace reBold tpl (['*'] ++ x ++ ['*']) = ['*'] ++ x ++ ['*'] := by
  cases x with
  | nil =>
    have hm0 : reBold.matchAt none ['*', '*'] = none := by decide
    have hm1 : reBold.matchAt (some '*') ['*'] = none := by decide
    unfold replace
    show replaceGo reBold tpl ['*', '*'] none 0 = _
    rw [replaceGo_miss_cons _ _ _ _ _ hm0, replaceGo_miss_cons _ _ _ _ _ hm1,
      replaceGo_nil _ _ _ _ (matchAt_firstLit_nil reBold '*' _ rfl _)]
    rfl
  | cons c xs =>
    have hc : c ≠ '*' := fun h => hx (h ▸ List.mem_cons_self _ _)
    have hm0 : reBold.matchAt none ('*' :: ((c :: xs) ++ ['*'])) = none :=
      inline_miss ['*', '*'] _ _ (by simp [List.cons_prefix_cons, hc.symm])
    have hm1 : ∀ prev, reBold.matchAt prev ['*'] = none := fun prev =>
      inline_miss ['*', '*'] _ _ (by simp [List.cons_prefix_cons])
    unfold replace
    show replaceGo reBold tpl ('*' :: ((c :: xs) ++ ['*'])) none 0 = _
    rw [replaceGo_miss_cons _ _ _ _ _ hm0,
      replaceGo_firstLit reBold tpl '*' _ rfl (c :: xs) ['*'] _ hx,
      replaceGo_miss_cons _ _ _ _ _ (hm1 _),
      replaceGo_nil _ _ _ _ (matchAt_firstLit_nil reBold '*' _ rfl _)]
    simp

theorem format_italic (x : Str) (hx : Plain x) :
    formatHtml (['*'] ++ x ++ ['*']) = wrap tagEm x := by
  have hW : ∀ c ∈ ['*'] ++ x ++ ['*'], isLineTerminator c = false :=
    noBreak_append _ _ (noBreak_append _ _ (by decide) hx.1) (by decide)
  have hi := wrap_inert tagEm x safeTag_em hx
  have hit : replace reItalic (wrapTpl tagEm) (['*'] ++ x ++ ['*']) = wrap tagEm x :=
    replace_inline_hit '*' [] x tagEm hx.2.1 hx.1
  unfold formatHtml
  rw [pass_h3 _ _ hW (by simp [List.cons_prefix_cons]),
    pass_h2 _ _ hW (by simp [List.cons_prefix_cons]),
    pass_h1 _ _ hW (by simp [List.cons_prefix_cons]), bold_pass_italic _ x hx.2.1, hit,
    hi.code, hi.bullet, hi.numbered, hi.blank, hi.newline, hi.rule]

theorem format_code (x : Str) (hx : Plain x) :
    formatHtml (['`'] ++ x ++ ['`']) = wrap tagCode x := by
  have hW : ∀ c ∈ ['`'] ++ x ++ ['`'], isLineTerminator c = false :=
    noBreak_append _ _ (noBreak_append _ _ (by decide) hx.1) (by decide)
  have hstar : '*' ∉ ['`'] ++ x ++ ['`'] := by
    simp only [List.mem_append, List.mem_singleton, not_or]
    exact ⟨⟨by decide, hx.2.1⟩, by decide⟩
  have hi := wrap_inert tagCode x safeTag_code hx
  have hit : replace reCode (wrapTpl tagCode) (['`'] ++ x ++ ['`']) = wrap tagCode x :=
    replace_inline_hit '`' [] x tagCode hx.2.2.1 hx.1
  unfold formatHtml
  rw [pass_h3 _ _ hW (by simp [List.cons_prefix_cons]),
    pass_h2 _ _ hW (by simp [List.cons_prefix_cons]),
    pass_h1 _ _ hW (by simp [List.cons_prefix_cons]), pass_bold _ _ hstar,
    pass_italic _ _ hstar, hit,
    hi.bullet, hi.numbered, hi.blank, hi.newline, hi.rule]

/-- C4: for every `x` without line terminator, `*`, backtick or `---`, the inline forms
`**x**`, `*x*` and the backtick-quoted `x` are rendered as `<p><strong>x</strong></p>`,
`<p><em>x</em></p>` and `<p><code>x</code></p>`. -/
theorem C4_inline_markup (x : Str) (hx : Plain x) :
    formatContent (some ("**".toList ++ x ++ "**".toList)) =
      "<p><strong>".toList ++ x ++ "</strong></p>".toList ∧
    formatContent (some ("*".toList ++ x ++ "*".toList)) =
      "<p><em>".toList ++ x ++ "</em></p>".toList ∧
    formatContent (some ("`".toList ++ x ++ "`".toList)) =
      "<p><code>".toList ++ x ++ "</code></p>".toList := by
  have e1 := format_bold x hx
  have e2 := format_italic x hx
  have e3 := format_code x hx
  simp only [List.cons_append, List.nil_append] at e1 e2 e3
  refine ⟨?_, ?_, ?_⟩
  · simp [formatContent, e1, wrap, pOpen, pClose, tagStrong]
  · simp [formatContent, e2, wrap, pOpen, pClose, tagEm]
  · simp [formatContent, e3, wrap, pOpen, pClose, tagCode]

/-- C4 at `x = "bold"`. -/
theorem C4_inline_markup_witness :
    Plain "bold".toList ∧
    (formatContent (some ("**".toList ++ "bold".toList ++ "**".toList)) =
        "<p><strong>".toList ++ "bold".toList ++ "</strong></p>".toList ∧
      formatContent (some ("*".toList ++ "bold".toList ++ "*".toList)) =
        "<p><em>".toList ++ "bold".toList ++ "</em></p>".toList ∧
      formatContent (some ("`".toList ++ "bold".toList ++ "`".toList)) =
        "<p><code>".toList ++ "bold".toList ++ "</code></p>".toList) :=
  ⟨by decide, C4_inline_markup "bold".toList (by decide)⟩

theorem format_bullet (t : Str) (ht : Plain t) :
    formatHtml (['-', ' '] ++ t) = wrap tagLi t := by
  have hW : ∀ c ∈ ['-', ' '] ++ t, isLineTerminator c = false :=
    noBreak_append _ _ (by decide) ht.1
  have hstar : '*' ∉ ['-', ' '] ++ t := by
    simp only [List.mem_append, not_or]
    exact ⟨by decide, ht.2.1⟩
  have htick : '`' ∉ ['-', ' '] ++ t := by
    simp only [List.mem_append, not_or]
    exact ⟨by decide, ht.2.2.1⟩
  have hi := wrap_inert tagLi t safeTag_li ht
  unfold formatHtml
  rw [pass_h3 _ _ hW (by simp [List.cons_prefix_cons]),
    pass_h2 _ _ hW (by simp [List.cons_prefix_cons]),
    pass_h1 _ _ hW (by simp [List.cons_prefix_cons]), pass_bold _ _ hstar,
    pass_italic _ _ hstar, pass_code _ _ htick, hit_bullet t ht.1,
    hi.numbered, hi.blank, hi.newline, hi.rule]

theorem format_numbered (n t : Str) (hne : n ≠ []) (hn : ∀ c ∈ n, isAsciiDigit c = true)
    (ht : Plain t) :
    formatHtml (n ++ ['.', ' '] ++ t) = wrap tagLi t := by
  have hW : ∀ c ∈ n ++ ['.', ' '] ++ t, isLineTerminator c = false :=
    noBreak_append _ _
      (noBreak_append _ _ (fun c hc => digit_not_lineTerminator c (hn c hc)) (by decide))
      ht.1
  have hstar : '*' ∉ n ++ ['.', ' '] ++ t := by
    simp only [List.mem_append, not_or]
    exact ⟨⟨star_not_mem_digits _ n hn (by decide), by decide⟩, ht.2.1⟩
  have htick : '`' ∉ n ++ ['.', ' '] ++ t := by
    simp only [List.mem_append, not_or]
    exact ⟨⟨star_not_mem_digits _ n hn (by decide), by decide⟩, ht.2.2.1⟩
  have hi := wrap_inert tagLi t safeTag_li ht
  have hhead : ∀ (c : Char) (p : Str), isAsciiDigit c = false →
      ¬ (c :: p) <+: n ++ ['.', ' '] ++ t := by
    intro c p hc hpre
    cases n with
    | nil => exact hne rfl
    | cons a as =>
      simp only [List.cons_append, List.cons_prefix_cons] at hpre
      have := hn a (List.mem_cons_self _ _)
      rw [← hpre.1, hc] at this
      exact absurd this (by simp)
  unfold formatHtml
  rw [pass_h3 _ _ hW (hhead _ _ (by decide)),
    pass_h2 _ _ hW (hhead _ _ (by decide)),
    pass_h1 _ _ hW (hhead _ _ (by decide)), pass_bold _ _ hstar,
    pass_italic _ _ hstar, pass_code _ _ htick,
    pass_bullet _ _ hW (hhead _ _ (by decide)), replace_numbered_hit n t hne hn tagLi ht.1,
    hi.blank, hi.newline, hi.rule]

/-- C5: for every `t` without line terminator, `*`, backtick or `---` and every
non-empty string `n` of ASCII digits, both the bullet line `- t` and the numbered line
`n. t` are rendered as `<p><li>t</li></p>`. -/
theorem C5_list_items (t n : Str) (ht : Plain t) (hne : n ≠ [])
    (hn : ∀ c ∈ n, isAsciiDigit c = true) :
    formatContent (some ("- ".toList ++ t)) = "<p><li>".toList ++ t ++ "</li></p>".toList ∧
    formatContent (some (n ++ ". ".toList ++ t)) =
      "<p><li>".toList ++ t ++ "</li></p>".toList := by
  have e1 := format_bullet t ht
  have e2 := format_numbered n t hne hn ht
  simp only [List.cons_append, List.nil_append, List.append_assoc] at e1 e2
  refine ⟨?_, ?_⟩
  · simp [formatContent, e1, wrap, pOpen, pClose, tagLi]
  · simp [formatContent, e2, wrap, pOpen, pClose, tagLi]

/-- C5 at `t = "item"`, `n = "12"`. -/
theorem C5_list_items_witness :
    Plain "item".toList ∧ "12".toList ≠ [] ∧ (∀ c ∈ "12".toList, isAsciiDigit c = true) ∧
    (formatContent (some ("- ".toList ++ "item".toList)) =
        "<p><li>".toList ++ "item".toList ++ "</li></p>".toList ∧
      formatContent (some ("12".toList ++ ". ".toList ++ "item".toList)) =
        "<p><li>".toList ++ "item".toList ++ "</li></p>".toList) :=
  ⟨by decide, by decide, by decide,
    C5_list_items "item".toList "12".toList (by decide) (by decide) (by decide)⟩

/-! ## Text of several lines -/

theorem lineRegexes_isLineRegex : ∀ re ∈ lineRegexes, IsLineRegex re := by
  intro re hre
  simp only [lineRegexes, List.mem_cons, List.mem_singleton, List.not_mem_nil,
    or_false] at hre
  rcases hre with h | h | h | h | h <;> subst h
  · exact reH3_isLineRegex
  · exact reH2_isLineRegex
  · exact reH1_isLineRegex
  · exact reBullet_isLineRegex
  · exact reNumbered_isLineRegex

/-- The test `beginsNumbered` says what its name says: the text is a non-empty run of
ASCII digits, then `. `, then anything. -/
theorem beginsNumbered_iff (t : Str) :
    beginsNumbered t = true ↔
      ∃ n r : Str, n ≠ [] ∧ (∀ c ∈ n, isAsciiDigit c = true) ∧ t = n ++ ['.', ' '] ++ r := by
  constructor
  · intro h
    simp only [beginsNumbered, Bool.and_eq_true, decide_eq_true_eq, Bool.not_eq_true',
      List.isEmpty_eq_false] at h
    obtain ⟨h1, r, hr⟩ := h
    refine ⟨t.takeWhile isAsciiDigit, r, h1, fun c hc => (List.mem_takeWhile_imp hc), ?_⟩
    rw [List.append_assoc, hr, List.takeWhile_append_dropWhile]
  · rintro ⟨n, r, hne, hn, rfl⟩
    have htk : (n ++ ['.', ' '] ++ r).takeWhile isAsciiDigit = n := by
      rw [List.append_assoc, List.takeWhile_append_of_pos hn]
      simp [List.takeWhile_cons, isAsciiDigit]
    have hdk : (n ++ ['.', ' '] ++ r).dropWhile isAsciiDigit = ['.', ' '] ++ r := by
      rw [List.append_assoc, List.dropWhile_append_of_pos hn]
      simp [List.dropWhile_cons, isAsciiDigit]
    simp only [beginsNumbered, htk, hdk]
    cases n with
    | nil => exact absurd rfl hne
    | cons a as => simp

/-- A line that begins no block is missed by every line pattern, wherever it stands. -/
theorem miss_of_not_beginsBlock (p : Str) (h : beginsBlock p = false) :
    ∀ re ∈ lineRegexes, ∀ prev, re.matchAt prev p = none := by
  intro re hre prev
  simp only [beginsBlock, Bool.or_eq_false_iff, decide_eq_false_iff_not] at h
  obtain ⟨⟨⟨⟨h1, h2⟩, h3⟩, hb⟩, hn⟩ := h
  simp only [lineRegexes, List.mem_cons, List.mem_singleton, List.not_mem_nil,
    or_false] at hre
  rcases hre with e | e | e | e | e <;> subst e
  · exact (linePattern_matchAt _ prev p).trans (by simp [h3])
  · exact (linePattern_matchAt _ prev p).trans (by simp [h2])
  · exact (linePattern_matchAt _ prev p).trans (by simp [h1])
  · exact (linePattern_matchAt _ prev p).trans (by simp [hb])
  · rw [reNumbered_matchAt]
    simp [hn]

/-- A line pattern leaves a text unchanged when it misses every line. -/
theorem replaceGo_linesMiss (re : Regex) (hre : re ∈ lineRegexes) (tpl : List RepPart)
    (s : Str) (h : LinesMiss s) : ∀ prev, replaceGo re tpl s prev 0 = s := by
  have hl := lineRegexes_isLineRegex re hre
  induction h with
  | last p hp hm =>
    intro prev
    have h := replaceGo_line re hl tpl p [] prev hp rfl (hm re hre prev)
    rw [List.append_nil] at h
    rw [h, replaceGo_nil _ _ _ _ (hl.atNil _)]
    simp
  | more p c t hp hm hc _ ih =>
    intro prev
    rw [replaceGo_line re hl tpl p (c :: t) prev hp
      (by simp [lineOf, List.takeWhile_cons, hc]) (hm re hre prev),
      replaceGo_line_break re hl tpl c t _ hc, ih]

theorem replace_linesMiss (re : Regex) (hre : re ∈ lineRegexes) (tpl : List RepPart)
    (s : Str) (h : LinesMiss s) : replace re tpl s = s :=
  replaceGo_linesMiss re hre tpl s h none

theorem intercalate_cons_cons (sep p q : Str) (r : List Str) :
    List.intercalate sep (p :: q :: r) = p ++ sep ++ List.intercalate sep (q :: r) := by
  simp [List.intercalate, List.intersperse]

theorem intercalate_single (sep p : Str) : List.intercalate sep [p] = p := by
  simp [List.intercalate, List.intersperse]

theorem mem_intercalate (c : Char) (sep : Str) (ps : List Str)
    (h : c ∈ List.intercalate sep ps) : c ∈ sep ∨ ∃ p ∈ ps, c ∈ p := by
  induction ps with
  | nil => simp [List.intercalate] at h
  | cons p r ih =>
    cases r with
    | nil =>
      rw [intercalate_single] at h
      exact Or.inr ⟨p, List.mem_cons_self _ _, h⟩
    | cons q r2 =>
      rw [intercalate_cons_cons] at h
      rcases List.mem_append.mp h with h1 | h1
      · rcases List.mem_append.mp h1 with h2 | h2
        · exact Or.inr ⟨p, List.mem_cons_self _ _, h2⟩
        · exact Or.inl h2
      · rcases ih h1 with h2 | ⟨x, hx, hc⟩
        · exact Or.inl h2
        · exact Or.inr ⟨x, List.mem_cons_of_mem _ hx, hc⟩

/-- Paragraphs that begin no block, joined by blank lines, are missed by every line
pattern. -/
theorem linesMiss_paragraphs (ps : List Str)
    (hps : ∀ p ∈ ps, (∀ c ∈ p, isLineTerminator c = false) ∧ beginsBlock p = false) :
    LinesMiss (List.intercalate blankLine ps) := by
  induction ps with
  | nil => exact LinesMiss.last [] (by simp) (miss_of_not_beginsBlock [] (by decide))
  | cons p r ih =>
    have hp := hps p (List.mem_cons_self _ _)
    cases r with
    | nil =>
      rw [intercalate_single]
      exact LinesMiss.last p hp.1 (miss_of_not_beginsBlock p hp.2)
    | cons q r2 =>
      rw [intercalate_cons_cons]
      have ih2 := ih (fun x hx => hps x (List.mem_cons_of_mem _ hx))
      have h2 := LinesMiss.more [] '\n' _ (by simp)
        (miss_of_not_beginsBlock [] (by decide)) (by decide) ih2
      have h3 := LinesMiss.more p '\n' _ hp.1 (miss_of_not_beginsBlock p hp.2)
        (by decide) h2
      simpa [blankLine] using h3

/-- The blank-line pass turns the separators between paragraphs into `</p><p>`. -/
theorem replaceGo_blank_paragraphs (ps : List Str) (hps : ∀ p ∈ ps, '\n' ∉ p)
    (prev : Option Char) :
    replaceGo reBlankLine [.text parBreak] (List.intercalate blankLine ps) prev 0 =
      List.intercalate parBreak ps := by
  induction ps generalizing prev with
  | nil =>
    simp only [List.intercalate, List.intersperse, List.flatten_nil]
    exact replaceGo_nil _ _ _ _ (matchAt_firstLit_nil _ '\n' _ rfl _)
  | cons p r ih =>
    have hp := hps p (List.mem_cons_self _ _)
    cases r with
    | nil =>
      rw [intercalate_single, intercalate_single]
      have h := replaceGo_firstLit reBlankLine [.text parBreak] '\n' _ rfl p [] prev hp
      rw [List.append_nil] at h
      rw [h, replaceGo_nil _ _ _ _ (matchAt_firstLit_nil _ '\n' _ rfl _)]
      simp
    | cons q r2 =>
      rw [intercalate_cons_cons, intercalate_cons_cons, List.append_assoc,
        replaceGo_firstLit reBlankLine [.text parBreak] '\n' _ rfl p _ prev hp]
      have hm : reBlankLine.matchAt (prevAfter prev p)
          (blankLine ++ List.intercalate blankLine (q :: r2)) =
          some ([], blankLine.length) := by
        have := litsPattern_matchAt blankLine (prevAfter prev p)
          (blankLine ++ List.intercalate blankLine (q :: r2))
        rw [if_pos (List.prefix_append _ _)] at this
        exact this
      rw [replaceGo_hit _ _ blankLine _ [] _ (by simp [blankLine]) hm,
        ih (fun x hx => hps x (List.mem_cons_of_mem _ hx))]
      simp [expand]

/-- The rule pass leaves paragraphs without `---`, joined by `</p><p>`, unchanged. -/
theorem replaceGo_rule_paragraphs (tpl : List RepPart) (ps : List Str)
    (hps : ∀ p ∈ ps, ¬ dashes <:+: p) (prev : Option Char) :
    replaceGo reRule tpl (List.intercalate parBreak ps) prev 0 =
      List.intercalate parBreak ps := by
  induction ps generalizing prev with
  | nil =>
    simp only [List.intercalate, List.intersperse, List.flatten_nil]
    exact replaceGo_nil _ _ _ _ (matchAt_firstLit_nil _ '-' _ rfl _)
  | cons p r ih =>
    have hp := hps p (List.mem_cons_self _ _)
    cases r with
    | nil =>
      rw [intercalate_single]
      have h := replaceGo_rule_seg tpl p [] prev hp (by simp)
      rw [List.append_nil] at h
      rw [h, replaceGo_nil _ _ _ _ (matchAt_firstLit_nil _ '-' _ rfl _)]
      simp
    | cons q r2 =>
      rw [intercalate_cons_cons, List.append_assoc,
        replaceGo_rule_seg tpl p _ prev hp (by simp [parBreak]),
        replaceGo_firstLit reRule tpl '-' _ rfl parBreak _ _ (by decide),
        ih (fun x hx => hps x (List.mem_cons_of_mem _ hx))]

theorem format_paragraphs (ps : List Str)
    (hps : ∀ p ∈ ps, Plain p ∧ beginsBlock p = false) :
    formatHtml (List.intercalate blankLine ps) = List.intercalate parBreak ps := by
  have hl : LinesMiss (List.intercalate blankLine ps) :=
    linesMiss_paragraphs ps (fun p hp => ⟨(hps p hp).1.1, (hps p hp).2⟩)
  have hstar : '*' ∉ List.intercalate blankLine ps := by
    intro h
    rcases mem_intercalate _ _ _ h with h1 | ⟨p, hp, hc⟩
    · revert h1; decide
    · exact (hps p hp).1.2.1 hc
  have htick : '`' ∉ List.intercalate blankLine ps := by
    intro h
    rcases mem_intercalate _ _ _ h with h1 | ⟨p, hp, hc⟩
    · revert h1; decide
    · exact (hps p hp).1.2.2.1 hc
  have hnl : ∀ p ∈ ps, '\n' ∉ p := fun p hp => newline_not_mem p (hps p hp).1.1
  have hnl2 : '\n' ∉ List.intercalate parBreak ps := by
    intro h
    rcases mem_intercalate _ _ _ h with h1 | ⟨p, hp, hc⟩
    · revert h1; decide
    · exact hnl p hp hc
  have hblank : replace reBlankLine [.text parBreak] (List.intercalate blankLine ps) =
      List.intercalate parBreak ps := replaceGo_blank_paragraphs ps hnl none
  have hrule : replace reRule [.text hRule] (List.intercalate parBreak ps) =
      List.intercalate parBreak ps :=
    replaceGo_rule_paragraphs _ ps (fun p hp => (hps p hp).1.2.2.2) none
  unfold formatHtml
  rw [replace_linesMiss reH3 (by simp [lineRegexes]) _ _ hl,
    replace_linesMiss reH2 (by simp [lineRegexes]) _ _ hl,
    replace_linesMiss reH1 (by simp [lineRegexes]) _ _ hl,
    pass_bold _ _ hstar, pass_italic _ _ hstar, pass_code _ _ htick,
    replace_linesMiss reBullet (by simp [lineRegexes]) _ _ hl,
    replace_linesMiss reNumbered (by simp [lineRegexes]) _ _ hl,
    hblank, pass_newline _ _ hnl2, hrule]

theorem wrap_paragraphs (ps : List Str) (hne : ps ≠ []) :
    pOpen ++ List.intercalate parBreak ps ++ pClose =
      (ps.map (fun p => pOpen ++ p ++ pClose)).flatten := by
  induction ps with
  | nil => exact absurd rfl hne
  | cons p r ih =>
    cases r with
    | nil => simp [intercalate_single]
    | cons q r2 =>
      have ih2 := ih (by simp)
      rw [intercalate_cons_cons, List.map_cons, List.flatten_cons, ← ih2]
      simp [parBreak, pOpen, pClose]

/-- C3: for every non-empty list of non-empty paragraphs, each without line terminator,
`*`, backtick or `---` and beginning no header or list item, the paragraphs joined by
blank lines are rendered as the concatenation of `<p>p</p>` over the paragraphs. -/
theorem C3_paragraphs_wrapped (ps : List Str) (hne : ps ≠ [])
    (hps : ∀ p ∈ ps, p ≠ [] ∧ Plain p ∧ beginsBlock p = false) :
    formatContent (some (List.intercalate "\n\n".toList ps)) =
      (ps.map (fun p => "<p>".toList ++ p ++ "</p>".toList)).flatten := by
  have hcontent : List.intercalate blankLine ps ≠ [] := by
    cases ps with
    | nil => exact absurd rfl hne
    | cons p r =>
      have hp := (hps p (List.mem_cons_self _ _)).1
      cases r with
      | nil => simpa [intercalate_single] using hp
      | cons q r2 => simp [intercalate_cons_cons, hp]
  have e := format_paragraphs ps (fun p hp => (hps p hp).2)
  have w := wrap_paragraphs ps hne
  show formatContent (some (List.intercalate blankLine ps)) =
    (ps.map (fun p => pOpen ++ p ++ pClose)).flatten
  rw [← w]
  simp [formatContent, hcontent, e]

/-- C3 at the paragraphs `one`, `two`. -/
theorem C3_paragraphs_wrapped_witness :
    ["one".toList, "two".toList] ≠ [] ∧
    (∀ p ∈ ["one".toList, "two".toList], p ≠ [] ∧ Plain p ∧ beginsBlock p = false) ∧
    formatContent (some (List.intercalate "\n\n".toList ["one".toList, "two".toList])) =
      (["one".toList, "two".toList].map
        (fun p => "<p>".toList ++ p ++ "</p>".toList)).flatten :=
  ⟨by decide, by decide,
    C3_paragraphs_wrapped ["one".toList, "two".toList] (by decide) (by decide)⟩

/-! ## A horizontal rule between two lines -/

theorem blank_pass_rule_line (tpl : List RepPart) (a b : Str)
    (ha : ∀ c ∈ a, isLineTerminator c = false) (hb : ∀ c ∈ b, isLineTerminator c = false) :
    replace reBlankLine tpl (a ++ '\n' :: (dashes ++ '\n' :: b)) =
      a ++ '\n' :: (dashes ++ '\n' :: b) := by
  have hm1 : ∀ prev, reBlankLine.matchAt prev ('\n' :: (dashes ++ '\n' :: b)) = none := by
    intro prev
    exact (litsPattern_matchAt blankLine prev _).trans
      (by simp [blankLine, dashes, List.cons_prefix_cons])
  have hm2 : ∀ prev, reBlankLine.matchAt prev ('\n' :: b) = none := by
    intro prev
    refine (litsPattern_matchAt blankLine prev _).trans ?_
    cases b with
    | nil => simp [blankLine, List.cons_prefix_cons]
    | cons x xs =>
      have hx : x ≠ '\n' := fun h =>
        newline_not_mem _ hb (h ▸ List.mem_cons_self _ _)
      simp [blankLine, List.cons_prefix_cons, hx.symm]
  have hlast := replaceGo_firstLit reBlankLine tpl '\n' _ rfl b [] (some '\n')
    (newline_not_mem b hb)
  rw [List.append_nil] at hlast
  unfold replace
  rw [replaceGo_firstLit reBlankLine tpl '\n' _ rfl a _ _ (newline_not_mem a ha),
    replaceGo_miss_cons _ _ _ _ _ (hm1 _),
    replaceGo_firstLit reBlankLine tpl '\n' _ rfl dashes _ _ (by decide),
    replaceGo_miss_cons _ _ _ _ _ (hm2 _), hlast,
    replaceGo_nil _ _ _ _ (matchAt_firstLit_nil _ '\n' _ rfl _)]
  simp

theorem newline_pass_rule_line (a b : Str)
    (ha : ∀ c ∈ a, isLineTerminator c = false) (hb : ∀ c ∈ b, isLineTerminator c = false) :
    replace reNewline [.text lineBreak] (a ++ '\n' :: (dashes ++ '\n' :: b)) =
      a ++ (lineBreak ++ (dashes ++ (lineBreak ++ b))) := by
  have hm : ∀ prev t, reNewline.matchAt prev (['\n'] ++ t) = some ([], ['\n'].length) := by
    intro prev t
    exact (litsPattern_matchAt ['\n'] prev _).trans (by simp [List.cons_prefix_cons])
  have hlast : ∀ prev, replaceGo reNewline [.text lineBreak] b prev 0 = b := by
    intro prev
    have h := replaceGo_firstLit reNewline [.text lineBreak] '\n' _ rfl b [] prev
      (newline_not_mem b hb)
    rw [List.append_nil] at h
    rw [h, replaceGo_nil _ _ _ _ (matchAt_firstLit_nil _ '\n' _ rfl _)]
    simp
  unfold replace
  rw [replaceGo_firstLit reNewline _ '\n' _ rfl a _ _ (newline_not_mem a ha)]
  show a ++ replaceGo reNewline _ (['\n'] ++ (dashes ++ '\n' :: b)) _ 0 = _
  rw [replaceGo_hit _ _ ['\n'] _ [] _ (by simp) (hm _ _),
    replaceGo_firstLit reNewline _ '\n' _ rfl dashes _ _ (by decide)]
  show a ++ (_ ++ (dashes ++ replaceGo reNewline _ (['\n'] ++ b) _ 0)) = _
  rw [replaceGo_hit _ _ ['\n'] _ [] _ (by simp) (hm _ _), hlast]
  simp [expand]

theorem rule_pass_rule_line (a b : Str) (ha : ¬ dashes <:+: a) (hb : ¬ dashes <:+: b) :
    replace reRule [.text hRule] (a ++ (lineBreak ++ (dashes ++ (lineBreak ++ b)))) =
      a ++ (lineBreak ++ (hRule ++ (lineBreak ++ b))) := by
  have hm : ∀ prev t, reRule.matchAt prev (dashes ++ t) = some ([], dashes.length) := by
    intro prev t
    rw [reRule_matchAt, if_pos (List.prefix_append _ _)]
    rfl
  have hlast := replaceGo_rule_seg [.text hRule] b []
    (prevAfter (prevAfter (prevAfter (prevAfter none a) lineBreak) dashes) lineBreak)
    hb (by simp)
  rw [List.append_nil] at hlast
  unfold replace
  rw [replaceGo_rule_seg _ a _ _ ha (by simp [lineBreak]),
    replaceGo_firstLit reRule _ '-' _ rfl lineBreak _ _ (by decide),
    replaceGo_hit _ _ dashes _ [] _ (by simp [dashes]) (hm _ _),
    replaceGo_firstLit reRule _ '-' _ rfl lineBreak _ _ (by decide), hlast,
    replaceGo_nil _ _ _ _ (matchAt_firstLit_nil _ '-' _ rfl _)]
  simp [expand]

theorem format_rule_line (a b : Str) (ha : Plain a) (hab : beginsBlock a = false)
    (hb : Plain b) (hbb : beginsBlock b = false) :
    formatHtml (a ++ '\n' :: (dashes ++ '\n' :: b)) =
      a ++ (lineBreak ++ (hRule ++ (lineBreak ++ b))) := by
  have hl : LinesMiss (a ++ '\n' :: (dashes ++ '\n' :: b)) :=
    LinesMiss.more a '\n' _ ha.1 (miss_of_not_beginsBlock a hab) (by decide)
      (LinesMiss.more dashes '\n' _ (by decide) (miss_of_not_beginsBlock dashes (by decide))
        (by decide) (LinesMiss.last b hb.1 (miss_of_not_beginsBlock b hbb)))
  have hstar : '*' ∉ a ++ '\n' :: (dashes ++ '\n' :: b) := by
    simp only [List.mem_append, List.mem_cons, not_or]
    exact ⟨ha.2.1, by decide, by decide, by decide, hb.2.1⟩
  have htick : '`' ∉ a ++ '\n' :: (dashes ++ '\n' :: b) := by
    simp only [List.mem_append, List.mem_cons, not_or]
    exact ⟨ha.2.2.1, by decide, by decide, by decide, hb.2.2.1⟩
  unfold formatHtml
  rw [replace_linesMiss reH3 (by simp [lineRegexes]) _ _ hl,
    replace_linesMiss reH2 (by simp [lineRegexes]) _ _ hl,
    replace_linesMiss reH1 (by simp [lineRegexes]) _ _ hl,
    pass_bold _ _ hstar, pass_italic _ _ hstar, pass_code _ _ htick,
    replace_linesMiss reBullet (by simp [lineRegexes]) _ _ hl,
    replace_linesMiss reNumbered (by simp [lineRegexes]) _ _ hl,
    blank_pass_rule_line _ a b ha.1 hb.1, newline_pass_rule_line a b ha.1 hb.1,
    rule_pass_rule_line a b ha.2.2.2 hb.2.2.2]

/-- C6: for all `a` and `b` without line terminator, `*`, backtick or `---` that begin
no header or list item, `a`, a line `---` and `b` are rendered as
`<p>a<br/><hr/><br/>b</p>`: each single newline becomes `<br/>` and the line of three
hyphens becomes `<hr/>`, not a list item. -/
theorem C6_line_breaks_and_rule (a b : Str) (ha : Plain a) (hab : beginsBlock a = false)
    (hb : Plain b) (hbb : beginsBlock b = false) :
    formatContent (some (a ++ "\n---\n".toList ++ b)) =
      "<p>".toList ++ a ++ "<br/><hr/><br/>".toList ++ b ++ "</p>".toList := by
  have e := format_rule_line a b ha hab hb hbb
  have hs : a ++ "\n---\n".toList ++ b = a ++ '\n' :: (dashes ++ '\n' :: b) := by
    simp [dashes]
  rw [hs]
  simp [formatContent, e, pOpen, pClose, lineBreak, hRule]

/-- C6 at `a = "above"`, `b = "below"`. -/
theorem C6_line_breaks_and_rule_witness :
    Plain "above".toList ∧ beginsBlock "above".toList = false ∧
    Plain "below".toList ∧ beginsBlock "below".toList = false ∧
    formatContent (some ("above".toList ++ "\n---\n".toList ++ "below".toList)) =
      "<p>".toList ++ "above".toList ++ "<br/><hr/><br/>".toList ++ "below".toList ++
        "</p>".toList :=
  ⟨by decide, by decide, by decide, by decide,
    C6_line_breaks_and_rule "above".toList "below".toList (by decide) (by decide)
      (by decide) (by decide)⟩


/-! ## The claims on the generator page -/

/-- A string of trimmed characters only trims to the empty string. -/
theorem jsTrim_blank (s : Str) (h : ∀ c ∈ s, isTrimChar c = true) : jsTrim s = [] := by
  have : s.dropWhile isTrimChar = [] := List.dropWhile_eq_nil_iff.mpr h
  simp [jsTrim, this]

/-- The guard of `handleGenerate` is the negation of `passesGuard`. -/
theorem guard_eq (st : GeneratorState) :
    (!truthy st.selectedSubject || !truthy st.selectedType || !truthy (jsTrim st.prompt)) =
      !passesGuard st := by
  simp [passesGuard, Bool.not_and]

/-- C7: in every state in which no subject or no revision type is selected, or the
prompt is empty or made of white space only, `handleGenerate` sends no request, raises
an error notification and leaves the state, `loading` and `result` included, as it
was. -/
theorem C7_blank_input_sends_nothing (env : PageEnv) (st : GeneratorState)
    (outcome : GenerateOutcome)
    (h : st.selectedSubject = [] ∨ st.selectedType = [] ∨
      (∀ c ∈ st.prompt, isTrimChar c = true)) :
    requests (handleGenerate env st outcome).2 = [] ∧
    (∃ msg, Effect.toastError msg ∈ (handleGenerate env st outcome).2) ∧
    (handleGenerate env st outcome).1.loading = st.loading ∧
    (handleGenerate env st outcome).1.result = st.result ∧
    (handleGenerate env st outcome).1 = st := by
  have hg : (!truthy st.selectedSubject || !truthy st.selectedType ||
      !truthy (jsTrim st.prompt)) = true := by
    rcases h with h | h | h
    · simp [truthy, h]
    · simp [truthy, h]
    · simp [truthy, jsTrim_blank _ h]
  have hres : handleGenerate env st outcome =
      (st, [.toastError "Remplis tous les champs requis".toList]) := by
    simp only [handleGenerate, hg, if_true]
  rw [hres]
  exact ⟨rfl, ⟨_, List.mem_singleton.mpr rfl⟩, rfl, rfl, rfl⟩

/-- C7 at a state whose prompt is two spaces and a line feed. -/
theorem C7_blank_input_sends_nothing_witness :
    ({ sampleState with prompt := "  \n".toList }.selectedSubject = [] ∨
      { sampleState with prompt := "  \n".toList }.selectedType = [] ∨
      (∀ c ∈ { sampleState with prompt := "  \n".toList }.prompt, isTrimChar c = true)) ∧
    requests (handleGenerate sampleEnv { sampleState with prompt := "  \n".toList }
      (.ok sampleResult)).2 = [] :=
  ⟨Or.inr (Or.inr (by decide)),
    (C7_blank_input_sends_nothing sampleEnv { sampleState with prompt := "  \n".toList }
      (.ok sampleResult) (Or.inr (Or.inr (by decide)))).1⟩

/-- C8 (as stated, refuted): from a state that passes the guard and displays a result, a
failing generation ends in a state whose result differs from the one before the call. -/
theorem C8_failure_clears_result :
    passesGuard sampleState = true ∧
    (handleGenerate sampleEnv sampleState (.error none)).1.result ≠ sampleState.result ∧
    (handleGenerate sampleEnv sampleState (.error none)).1 ≠ sampleState := by
  decide

/-- C8 (amended): for every state that passes the guard and every failing generation
request, `handleGenerate` raises an error notification, leaves the selected subject and
type, the prompt and the image as they were, and ends with `loading` false and `result`
null. -/
theorem C8_failure_keeps_form (env : PageEnv) (st : GeneratorState) (detail : Option Str)
    (h : passesGuard st = true) :
    (∃ msg, Effect.toastError msg ∈ (handleGenerate env st (.error detail)).2) ∧
    (handleGenerate env st (.error detail)).1 =
      { st with loading := false, result := none } := by
  have hg : (!truthy st.selectedSubject || !truthy st.selectedType ||
      !truthy (jsTrim st.prompt)) = false := by
    rw [guard_eq, h]
    rfl
  have hres : handleGenerate env st (.error detail) =
      ({ st with loading := false, result := none },
        [Effect.post (API env ++ "/generate".toList)
          (.generate st.prompt st.selectedSubject st.selectedType st.imageBase64)
          (if env.user.isSome then
            [("Authorization".toList,
              "Bearer ".toList ++ jsString (getToken env.localStorage))]
           else []),
          .consoleError, .toastError (generateErrorMessage detail)]) := by
    simp only [handleGenerate, hg, Bool.false_eq_true, if_false]
  rw [hres]
  exact ⟨⟨generateErrorMessage detail, by simp⟩, rfl⟩

/-- C8 (amended) at the sample state. -/
theorem C8_failure_keeps_form_witness :
    passesGuard sampleState = true ∧
    (handleGenerate sampleEnv sampleState (.error none)).1 =
      { sampleState with loading := false, result := none } :=
  ⟨by decide, (C8_failure_keeps_form sampleEnv sampleState none (by decide)).2⟩

/-- C9: for every state that passes the guard, whatever the outcome, `handleGenerate`
sends exactly one request: a POST to `/api/generate` whose body holds the prompt, the
selected subject and type and the image (null in the initial state, when none was
uploaded), with the header `Authorization: Bearer <token>` when a user is logged in and
with no header otherwise. -/
theorem C9_generate_request_shape (env : PageEnv) (st : GeneratorState)
    (outcome : GenerateOutcome) (h : passesGuard st = true) :
    requests (handleGenerate env st outcome).2 =
      [Effect.post (env.backendUrl ++ "/api/generate".toList)
        (Body.generate st.prompt st.selectedSubject st.selectedType st.imageBase64)
        (if env.user.isSome then
          [("Authorization".toList,
            "Bearer ".toList ++ jsString (env.localStorage "token".toList))]
         else [])] ∧
    GeneratorState.initial.imageBase64 = none := by
  have hg : (!truthy st.selectedSubject || !truthy st.selectedType ||
      !truthy (jsTrim st.prompt)) = false := by
    rw [guard_eq, h]
    rfl
  have hurl : API env ++ "/generate".toList = env.backendUrl ++ "/api/generate".toList := by
    simp [API]
  refine ⟨?_, rfl⟩
  cases outcome <;>
    simp only [handleGenerate, hg, requests, hurl, getToken] <;>
    simp [List.filter, Effect.isPost]

/-- C9 at the sample state, with a logged-in user. -/
theorem C9_generate_request_shape_witness :
    passesGuard sampleState = true ∧
    requests (handleGenerate sampleEnv sampleState (.ok sampleResult)).2 =
      [Effect.post "https://goya.example/api/generate".toList
        (Body.generate "Thales".toList "maths".toList "fiche".toList none)
        [("Authorization".toList, "Bearer tok123".toList)]] :=
  ⟨by decide, (C9_generate_request_shape sampleEnv sampleState (.ok sampleResult)
    (by decide)).1⟩

/-- C10: wherever `handleSave` can run, that is in every state in which the result panel
is rendered, it sends a request if and only if a user is logged in; the request is then
one POST to `/api/revisions` whose body is the prompt, subject, revision type and content
of the displayed result, not of the form, with the header `Authorization: Bearer <token>`
(so it is wherever the save button is rendered); and while `user` is null neither
`handleSave` nor `handleGenerate` posts to `/api/revisions`, in any state. -/
theorem C10_save_only_when_logged_in (env : PageEnv) (st : GeneratorState)
    (outcome : SaveOutcome) (gen : GenerateOutcome) (hshown : resultPanelShown st = true) :
    (requests (handleSave env st outcome).2 ≠ [] ↔ env.user.isSome = true) ∧
    (∀ r, st.result = some r → env.user.isSome = true →
      requests (handleSave env st outcome).2 =
        [Effect.post (env.backendUrl ++ "/api/revisions".toList)
          (Body.save r.prompt r.subject r.revision_type r.content)
          [("Authorization".toList,
            "Bearer ".toList ++ jsString (env.localStorage "token".toList))]]) ∧
    (saveButtonShown env st = true → requests (handleSave env st outcome).2 ≠ []) ∧
    (∀ st2 : GeneratorState, env.user = none →
      requests (handleSave env st2 outcome).2 = [] ∧
      ∀ e ∈ (handleGenerate env st2 gen).2, ∀ body headers,
        e ≠ Effect.post (env.backendUrl ++ "/api/revisions".toList) body headers) := by
  have hurl : API env ++ "/revisions".toList = env.backendUrl ++ "/api/revisions".toList := by
    simp [API]
  have hne : ∀ body headers body2 headers2,
      Effect.post (API env ++ "/generate".toList) body headers ≠
        Effect.post (env.backendUrl ++ "/api/revisions".toList) body2 headers2 := by
    intro body headers body2 headers2 h
    injection h with h1 _ _
    rw [← hurl, List.append_cancel_left_eq] at h1
    revert h1
    decide
  obtain ⟨r0, hr0⟩ : ∃ r, st.result = some r := by
    cases h : st.result with
    | none => simp [resultPanelShown, h] at hshown
    | some r => exact ⟨r, rfl⟩
  have hiff : requests (handleSave env st outcome).2 ≠ [] ↔ env.user.isSome = true := by
    cases hu : env.user with
    | none => simp [handleSave, hu, requests, Effect.isPost]
    | some u => cases outcome <;> simp [handleSave, hu, hr0, requests, Effect.isPost]
  refine ⟨hiff, ?_, ?_, ?_⟩
  · intro r hr hu
    have hu2 : env.user.isNone = false := by
      cases h : env.user with
      | none => simp [h] at hu
      | some u => rfl
    cases outcome <;>
      simp [handleSave, hu2, hr, requests, Effect.isPost, API, getToken]
  · intro hbtn
    have hu : env.user.isSome = true := by
      simp only [saveButtonShown, Bool.and_eq_true] at hbtn
      exact hbtn.2
    exact hiff.mpr hu
  · intro st2 hu
    refine ⟨by simp [handleSave, hu, requests, Effect.isPost], ?_⟩
    intro e he body headers
    by_cases hg : (!truthy st2.selectedSubject || !truthy st2.selectedType ||
        !truthy (jsTrim st2.prompt)) = true
    · simp only [handleGenerate, hg, if_true, List.mem_singleton] at he
      subst he
      exact fun h => Effect.noConfusion h
    · cases gen <;>
        simp only [handleGenerate, hg, Bool.false_eq_true, if_false, List.mem_cons,
          List.mem_singleton, List.not_mem_nil, or_false] at he
      · rcases he with he | he <;> subst he
        · exact hne _ _ _ _
        · exact fun h => Effect.noConfusion h
      · rcases he with he | he | he <;> subst he
        · exact hne _ _ _ _
        · exact fun h => Effect.noConfusion h
        · exact fun h => Effect.noConfusion h

/-- C10 at the sample state with a logged-in user: the saved body is the displayed
result, not the form; and with no user nothing is sent. -/
theorem C10_save_only_when_logged_in_witness :
    resultPanelShown sampleState = true ∧
    requests (handleSave sampleEnv sampleState .ok).2 =
      [Effect.post "https://goya.example/api/revisions".toList
        (Body.save "Pythagore".toList "maths".toList "fiche".toList "# Pythagore".toList)
        [("Authorization".toList, "Bearer tok123".toList)]] ∧
    requests (handleSave anonymousEnv sampleState .ok).2 = [] :=
  ⟨by decide,
    (C10_save_only_when_logged_in sampleEnv sampleState .ok (.error none) (by decide)).2.1
      sampleResult rfl rfl,
    by decide⟩

/-! ## The claims on the dashboard page -/

theorem handleDelete_ok_revisions (env : PageEnv) (st current : DashboardState) (i : Str) :
    (handleDelete env st i .ok current).1.revisions =
      st.revisions.filter (fun r => r.id != i) := by
  simp only [handleDelete]
  split <;> rfl

theorem handleDelete_ok_selected (env : PageEnv) (st current : DashboardState) (i : Str) :
    (handleDelete env st i .ok current).1.selectedRevision =
      if st.selectedRevision.map (fun r => r.id) = some i then none
      else current.selectedRevision := by
  simp only [handleDelete]
  split <;> rfl

/-- C11: after a successful `handleDelete(i)` the displayed list is the list `L` displayed
at the click, filtered by `r.id !== i`, whatever happened while the request was pending
(in particular when nothing did): no remaining element has id `i`, every element of `L`
with another id is kept, and the kept elements are in their old relative order. -/
theorem C11_delete_removes_exactly (env : PageEnv) (st current : DashboardState) (i : Str) :
    (handleDelete env st i .ok current).1.revisions =
      st.revisions.filter (fun r => r.id != i) ∧
    (∀ r ∈ (handleDelete env st i .ok current).1.revisions, r.id ≠ i) ∧
    (∀ r ∈ st.revisions, r.id ≠ i → r ∈ (handleDelete env st i .ok current).1.revisions) ∧
    List.Sublist (handleDelete env st i .ok current).1.revisions st.revisions ∧
    (handleDelete env st i .ok st).1.revisions = st.revisions.filter (fun r => r.id != i) := by
  rw [handleDelete_ok_revisions, handleDelete_ok_revisions]
  refine ⟨rfl, ?_, ?_, List.filter_sublist _, rfl⟩
  · intro r hr
    simpa using (List.mem_filter.mp hr).2
  · intro r hr hne
    exact List.mem_filter.mpr ⟨hr, by simpa using hne⟩

/-- C12: when the DELETE request of `handleDelete(i)` fails, an error notification is
raised and the handler changes nothing: the state after it is the state in which the
request settled, and so the state before the call when nothing happened in between,
the displayed list and the selection included. -/
theorem C12_delete_failure_keeps_state (env : PageEnv) (st current : DashboardState)
    (i : Str) :
    (∃ msg, Effect.toastError msg ∈ (handleDelete env st i .error current).2) ∧
    (handleDelete env st i .error current).1 = current ∧
    (handleDelete env st i .error st).1.revisions = st.revisions ∧
    (handleDelete env st i .error st).1.selectedRevision = st.selectedRevision ∧
    (handleDelete env st i .error st).1 = st := by
  refine ⟨⟨"Erreur lors de la suppression".toList, ?_⟩, rfl, rfl, rfl, rfl⟩
  simp [handleDelete]

/-- With no event between the click and the response, `handleDelete` preserves the
invariant, and on success it clears a selection exactly when its id is the deleted one. -/
theorem selectionListed_uninterrupted (env : PageEnv) (st : DashboardState) (i : Str)
    (outcome : DeleteOutcome) (h : SelectionListed st) :
    SelectionListed (handleDelete env st i outcome st).1 ∧
    (∀ s, st.selectedRevision = some s →
      ((handleDelete env st i .ok st).1.selectedRevision = none ↔ s.id = i)) := by
  constructor
  · cases outcome with
    | error => exact h
    | ok =>
      unfold SelectionListed
      rw [handleDelete_ok_revisions, handleDelete_ok_selected]
      rcases h with h | ⟨s, r, hs, hr, hid⟩
      · left
        simp [h]
      · by_cases hsi : s.id = i
        · left
          simp [hs, hsi]
        · right
          refine ⟨s, r, by simp [hs, hsi], List.mem_filter.mpr ⟨hr, ?_⟩, hid⟩
          simpa [hid] using hsi
  · intro s hs
    rw [handleDelete_ok_selected, hs]
    by_cases hsi : s.id = i
    · simp [hsi]
    · simp [hsi]

/-- The invariant holds initially and is preserved by selecting a listed revision. -/
theorem selectionListed_select :
    SelectionListed DashboardState.initial ∧
    (∀ st r, SelectionListed st → r ∈ st.revisions → SelectionListed (selectRevision st r)) :=
  ⟨Or.inl rfl, fun _ r _ hr => Or.inr ⟨r, r, rfl, hr, rfl⟩⟩

/-- C18 (the code at the failing input): the dashboard lists `r1` and `r2` and shows
none; the delete button of `r1` is clicked; while the request is pending the card of `r1`
is clicked, which selects a listed revision; the request then succeeds.  The handler
filters the list of the click and tests the selection of the click, which was null: it
ends with the list `[r2]` and the selection `r1`, and the invariant, which held in every
state before, is broken. -/
theorem C18_stale_selection_after_delete :
    SelectionListed listedDashboard ∧
    revisionOne ∈ listedDashboard.revisions ∧
    SelectionListed (selectRevision listedDashboard revisionOne) ∧
    (handleDelete sampleEnv listedDashboard "r1".toList .ok
      (selectRevision listedDashboard revisionOne)).1.revisions = [revisionTwo] ∧
    (handleDelete sampleEnv listedDashboard "r1".toList .ok
      (selectRevision listedDashboard revisionOne)).1.selectedRevision = some revisionOne ∧
    ¬ SelectionListed (handleDelete sampleEnv listedDashboard "r1".toList .ok
      (selectRevision listedDashboard revisionOne)).1 := by
  have hrev : (handleDelete sampleEnv listedDashboard "r1".toList .ok
      (selectRevision listedDashboard revisionOne)).1.revisions = [revisionTwo] := by decide
  have hsel : (handleDelete sampleEnv listedDashboard "r1".toList .ok
      (selectRevision listedDashboard revisionOne)).1.selectedRevision = some revisionOne := by
    decide
  refine ⟨Or.inl rfl, by decide, Or.inr ⟨_, _, rfl, List.mem_cons_self _ _, rfl⟩, hrev, hsel,
    ?_⟩
  rintro (h | ⟨s, r, hs, hr, hid⟩)
  · rw [hsel] at h
    exact absurd h (by simp)
  · rw [hsel] at hs
    rw [hrev] at hr
    have hs2 : s = revisionOne := (Option.some.inj hs).symm
    have hr2 : r = revisionTwo := List.mem_singleton.mp hr
    rw [hs2, hr2] at hid
    revert hid
    decide

/-! ## The claims on the cached session and the welcome popup -/

theorem truthyItem_some (s : Str) (h : s ≠ []) : truthyItem (some s) = true := by
  cases s with
  | nil => exact absurd rfl h
  | cons c tl => rfl

theorem truthyItem_isSome (v : Option Str) (h : truthyItem v = true) : v ≠ none := by
  intro hv
  rw [hv] at h
  exact absurd h (by decide)

/-- C13: for every non-empty token `t` and every profile `u` that `JSON.stringify` writes
as a non-empty text which `JSON.parse` reads back as `u`, a fresh mount of `AuthProvider`
over the storage left by `login(t, u)` ends with `user = u`, and `getToken()` is `t`
there; and over any storage the restore effect sets a user only when both `token` and
`user` are present in it. -/
theorem C13_session_survives_reload (codec : JsonCodec) (ls : Storage) (st : AuthState)
    (t : Str) (u : User) (ht : t ≠ []) (hjson : codec.stringify u ≠ [])
    (hround : codec.parse (codec.stringify u) = some u) :
    authMount codec (login codec ls st t u).1 = some { user := some u, loading := false } ∧
    getToken (login codec ls st t u).1 = some t ∧
    (∀ (ls2 : Storage) (a : AuthState), authMount codec ls2 = some a → a.user ≠ none →
      ls2 "token".toList ≠ none ∧ ls2 "user".toList ≠ none) := by
  have htok : (login codec ls st t u).1 "token".toList = some t := by
    simp [login, setItem]
  have husr : (login codec ls st t u).1 "user".toList = some (codec.stringify u) := by
    simp [login, setItem]
  refine ⟨?_, ?_, ?_⟩
  · simp only [authMount, htok, husr, truthyItem_some t ht, truthyItem_some _ hjson,
      Bool.and_self, if_true, Option.some_bind, hround, AuthState.initial]
  · simpa [getToken] using htok
  · intro ls2 a ha hu
    by_cases hb : (truthyItem (ls2 "token".toList) && truthyItem (ls2 "user".toList)) = true
    · rw [Bool.and_eq_true] at hb
      exact ⟨truthyItem_isSome _ hb.1, truthyItem_isSome _ hb.2⟩
    · simp only [authMount, hb, Bool.false_eq_true, if_false, Option.some.injEq] at ha
      rw [← ha] at hu
      exact absurd rfl hu

/-- C13 with the sample codec, token `tok123` and the sample profile. -/
theorem C13_session_survives_reload_witness :
    "tok123".toList ≠ [] ∧ sampleCodec.stringify sampleUser ≠ [] ∧
    sampleCodec.parse (sampleCodec.stringify sampleUser) = some sampleUser ∧
    authMount sampleCodec
        (login sampleCodec emptyStorage AuthState.initial "tok123".toList sampleUser).1 =
      some { user := some sampleUser, loading := false } :=
  ⟨by decide, by decide, by decide,
    (C13_session_survives_reload sampleCodec emptyStorage AuthState.initial
      "tok123".toList sampleUser (by decide) (by decide) (by decide)).1⟩

/-- C19: after `logout()`, whatever the state and the storage before, `user` is null,
`token` and `user` are absent from local storage, `getToken()` is null, a fresh mount of
`AuthProvider` ends with `user` null, and every other storage key is as before. -/
theorem C19_logout_clears_session (codec : JsonCodec) (ls : Storage) (st : AuthState) :
    (logout ls st).2.user = none ∧
    (logout ls st).1 "token".toList = none ∧
    (logout ls st).1 "user".toList = none ∧
    getToken (logout ls st).1 = none ∧
    authMount codec (logout ls st).1 = some { user := none, loading := false } ∧
    (∀ k, k ≠ "token".toList → k ≠ "user".toList → (logout ls st).1 k = ls k) := by
  have htok : (logout ls st).1 "token".toList = none := by
    simp [logout, removeItem]
  have husr : (logout ls st).1 "user".toList = none := by
    simp [logout, removeItem]
  refine ⟨rfl, htok, husr, by simpa [getToken] using htok, ?_, ?_⟩
  · simp only [authMount, htok, husr, truthyItem, Bool.and_self, Bool.false_eq_true,
      if_false, AuthState.initial]
  · intro k h1 h2
    show (if k = "user".toList then none else if k = "token".toList then none else ls k) =
      ls k
    rw [if_neg h2, if_neg h1]

theorem landingMount_seen (ss : Storage)
    (h : truthyItem (ss "hasSeenWelcome".toList) = true) :
    landingMount ss = (ss, { showWelcome := false }) := by
  simp only [landingMount, h, Bool.not_true, Bool.false_eq_true, if_false]

theorem landingMount_first (ss : Storage) (h : ss "hasSeenWelcome".toList = none) :
    landingMount ss =
      (setItem ss "hasSeenWelcome".toList "true".toList, { showWelcome := true }) := by
  simp only [landingMount, h, truthyItem, Bool.not_false, if_true]

theorem landingMounts_seen (n : Nat) (ss : Storage)
    (h : truthyItem (ss "hasSeenWelcome".toList) = true) :
    landingMounts n ss = List.replicate n false := by
  induction n with
  | zero => rfl
  | succ k ih =>
    simp [landingMounts, landingMount_seen ss h, ih, List.replicate_succ]

/-- In a tab session the flag is absent or holds `true`. -/
theorem sessionReached_flag (ss : Storage) (h : SessionReached ss) :
    ss "hasSeenWelcome".toList = none ∨
      ss "hasSeenWelcome".toList = some "true".toList := by
  induction h with
  | start ss h => exact Or.inl h
  | mount ss _ ih =>
    right
    rcases ih with h | h
    · rw [landingMount_first ss h]
      show (setItem ss "hasSeenWelcome".toList "true".toList) "hasSeenWelcome".toList = _
      exact if_pos rfl
    · rw [landingMount_seen ss (by rw [h]; decide)]
      exact h

/-- C14: on each mount of `LandingPage` in a tab session the popup is opened if and only
if session storage holds no `hasSeenWelcome` value, and every mount leaves that value
set (to `true`), in a storage of the session again; hence in every run of mounts over
one session storage that starts without the value, the empty one included, the popup is
opened on the first mount and on no later one. -/
theorem C14_popup_once_per_session (ss : Storage) (n : Nat) (h : SessionReached ss) :
    ((landingMount ss).2.showWelcome = true ↔ ss "hasSeenWelcome".toList = none) ∧
    (landingMount ss).1 "hasSeenWelcome".toList = some "true".toList ∧
    SessionReached (landingMount ss).1 ∧
    (∀ ss0 : Storage, ss0 "hasSeenWelcome".toList = none →
      landingMounts (n + 1) ss0 = true :: List.replicate n false) ∧
    landingMounts (n + 1) emptyStorage = true :: List.replicate n false := by
  have hseq : ∀ ss0 : Storage, ss0 "hasSeenWelcome".toList = none →
      landingMounts (n + 1) ss0 = true :: List.replicate n false := by
    intro ss0 h0
    have hs : truthyItem
        ((setItem ss0 "hasSeenWelcome".toList "true".toList) "hasSeenWelcome".toList) =
          true := by
      have : (setItem ss0 "hasSeenWelcome".toList "true".toList) "hasSeenWelcome".toList =
          some "true".toList := if_pos rfl
      rw [this]
      decide
    simp only [landingMounts, landingMount_first ss0 h0]
    rw [landingMounts_seen n _ hs]
  refine ⟨?_, ?_, SessionReached.mount ss h, hseq, hseq emptyStorage rfl⟩
  · rcases sessionReached_flag ss h with h1 | h1
    · rw [landingMount_first ss h1]
      exact ⟨fun _ => h1, fun _ => rfl⟩
    · rw [landingMount_seen ss (by rw [h1]; decide)]
      constructor
      · intro hh
        exact Bool.noConfusion hh
      · intro hh
        rw [hh] at h1
        exact Option.noConfusion h1
  · rcases sessionReached_flag ss h with h1 | h1
    · rw [landingMount_first ss h1]
      show (setItem ss "hasSeenWelcome".toList "true".toList) "hasSeenWelcome".toList = _
      exact if_pos rfl
    · rw [landingMount_seen ss (by rw [h1]; decide)]
      exact h1

/-- C14 at the storage left by the first mount of a session: the second mount does not
open the popup; and at the empty storage the first mount does. -/
theorem C14_popup_once_per_session_witness :
    SessionReached (landingMount emptyStorage).1 ∧
    (landingMount (landingMount emptyStorage).1).2.showWelcome = false ∧
    (landingMount emptyStorage).2.showWelcome = true ∧
    landingMounts 3 emptyStorage = [true, false, false] :=
  have h1 : SessionReached (landingMount emptyStorage).1 :=
    SessionReached.mount emptyStorage (SessionReached.start emptyStorage rfl)
  ⟨h1, by decide, by decide,
    (C14_popup_once_per_session (landingMount emptyStorage).1 2 h1).2.2.2.2⟩

/-! ## Further claims on `formatContent` -/

/-- C15: for every non-empty `s` without line terminator, `*`, backtick or `---` that
begins no header or list item, `formatContent(s)` is `<p>` + `s` + `</p>`, with `s`
character for character, and this is the inner HTML of the result panel when `s` is the
content of the displayed result. -/
theorem C15_plain_text_unescaped (s : Str) (hne : s ≠ []) (hs : Plain s)
    (hb : beginsBlock s = false) :
    formatContent (some s) = "<p>".toList ++ s ++ "</p>".toList ∧
    (∀ (st : GeneratorState) (r : GenResult), st.result = some r → r.content = s →
      resultInnerHtml st = some ("<p>".toList ++ s ++ "</p>".toList)) := by
  have e : formatContent (some s) = "<p>".toList ++ s ++ "</p>".toList := by
    simp [formatContent, hne, formatHtml_inert s (plain_inert s hs hb), pOpen, pClose]
  refine ⟨e, ?_⟩
  intro st r hr hc
  simp only [resultInnerHtml, hr, Option.map_some', hc, e]

/-- C15 at an `img` element with an event-handler attribute. -/
theorem C15_plain_text_unescaped_witness :
    "<img src=x onerror=alert(1)>".toList ≠ [] ∧
    Plain "<img src=x onerror=alert(1)>".toList ∧
    beginsBlock "<img src=x onerror=alert(1)>".toList = false ∧
    formatContent (some "<img src=x onerror=alert(1)>".toList) =
      "<p><img src=x onerror=alert(1)></p>".toList :=
  ⟨by decide, by decide, by decide,
    (C15_plain_text_unescaped "<img src=x onerror=alert(1)>".toList
      (by decide) (by decide) (by decide)).1⟩

/-- C17: `formatContent(s)` is the empty string if and only if `s` is; null and undefined
give the empty string; and for every non-empty `s` the result begins with `<p>` and ends
with `</p>`. -/
theorem C17_empty_only_for_empty (s : Str) :
    (formatContent (some s) = [] ↔ s = []) ∧
    formatContent none = [] ∧
    (s ≠ [] → "<p>".toList <+: formatContent (some s) ∧
      "</p>".toList <:+ formatContent (some s)) := by
  refine ⟨?_, rfl, ?_⟩
  · constructor
    · intro h
      by_contra hne
      simp [formatContent, hne, pOpen] at h
    · intro h
      simp [formatContent, h]
  · intro hne
    simp only [formatContent, hne, if_false]
    exact ⟨⟨formatHtml s ++ pClose, by simp [pOpen]⟩, ⟨pOpen ++ formatHtml s, by simp [pClose]⟩⟩

/-- C17 at `s = "a"`. -/
theorem C17_empty_only_for_empty_witness :
    "a".toList ≠ [] ∧ "<p>".toList <+: formatContent (some "a".toList) ∧
    "</p>".toList <:+ formatContent (some "a".toList) :=
  ⟨by decide, (C17_empty_only_for_empty "a".toList).2.2 (by decide)⟩

/-! ## Well-nestedness of the output -/

/-- C16 (as stated, refuted): the input ``*a `b* c` `` has neither `<` nor `>`, and its
output `<p><em>a <code>b</em> c</code></p>` closes `em` while `code` is open; likewise
`**a *b** c*` gives `<p><strong>a <em>b</strong> c</em></p>`. -/
theorem C16_crossing_tags :
    '<' ∉ crossingInput ∧ '>' ∉ crossingInput ∧
    formatContent (some crossingInput) = "<p><em>a <code>b</em> c</code></p>".toList ∧
    wellNested (formatContent (some crossingInput)) = false ∧
    '<' ∉ crossingStars ∧ '>' ∉ crossingStars ∧
    formatContent (some crossingStars) = "<p><strong>a <em>b</strong> c</em></p>".toList ∧
    wellNested (formatContent (some crossingStars)) = false := by
  decide

theorem nestGo_plain (st : List Str) (c : Char) (X : Str) (h : c ≠ '<') :
    nestGo st none (c :: X) = nestGo st none X := by
  simp [nestGo, h]

theorem nestGo_text (st : List Str) (t X : Str) (h : ∀ c ∈ t, c ≠ '<') :
    nestGo st none (t ++ X) = nestGo st none X := by
  induction t with
  | nil => rfl
  | cons c tl ih =>
    rw [List.cons_append, nestGo_plain _ _ _ (h c (List.mem_cons_self _ _)),
      ih (fun d hd => h d (List.mem_cons_of_mem _ hd))]

theorem nestGo_inTag (st : List Str) (acc name X : Str) (h : '>' ∉ name) :
    nestGo st (some acc) (name ++ '>' :: X) =
      match applyTag st (acc.reverse ++ name) with
      | some st2 => nestGo st2 none X
      | none => false := by
  induction name generalizing acc with
  | nil => simp [nestGo]
  | cons c tl ih =>
    have hc : c ≠ '>' := fun e => h (e ▸ List.mem_cons_self _ _)
    have ih2 := ih (c :: acc) (fun e => h (List.mem_cons_of_mem _ e))
    have e : (c :: acc).reverse ++ tl = acc.reverse ++ c :: tl := by simp
    rw [e] at ih2
    show nestGo st (some acc) (c :: (tl ++ '>' :: X)) = _
    rw [nestGo, if_neg hc]
    exact ih2

/-- The scan over one tag. -/
theorem nestGo_tag (st : List Str) (name X : Str) (h : '>' ∉ name) :
    nestGo st none ('<' :: (name ++ '>' :: X)) =
      match applyTag st name with
      | some st2 => nestGo st2 none X
      | none => false := by
  have := nestGo_inTag st [] name X h
  simpa [nestGo] using this

theorem tagName_no_close (name : Str) (h : TagName name) : '>' ∉ name :=
  fun hc => (h _ hc).2.1 rfl

/-- The first character of the blank-line, newline and rule patterns occurs in no tag. -/
theorem breakChar_not_mem_tag (c0 : Char) (hc0 : c0 = '\n' ∨ c0 = '-') (name : Str)
    (hn : TagName name) : c0 ∉ '<' :: (name ++ ['>']) := by
  intro h
  simp only [List.mem_cons, List.mem_append, List.mem_singleton, List.not_mem_nil,
    or_false] at h
  rcases h with h | h | h
  · rcases hc0 with e | e <;> (rw [e] at h; revert h; decide)
  · rcases hc0 with e | e
    · exact (hn _ h).2.2.1 e
    · exact (hn _ h).2.2.2 e
  · rcases hc0 with e | e <;> (rw [e] at h; revert h; decide)

theorem litPass_nil (d : Str) (hd : d ≠ []) (tpl : List RepPart) (prev : Option Char)
    (n : Nat) : replaceGo ⟨lits d, false⟩ tpl [] prev n = [] := by
  apply replaceGo_nil
  rw [litsPattern_matchAt]
  cases d with
  | nil => exact absurd rfl hd
  | cons c ds => simp

theorem litPass_tag (c0 : Char) (ds : Str) (hc0 : c0 = '\n' ∨ c0 = '-')
    (tpl : List RepPart) (name s : Str) (hn : TagName name) (prev : Option Char) :
    ∃ prev2, replaceGo ⟨lits (c0 :: ds), false⟩ tpl ('<' :: (name ++ '>' :: s)) prev 0 =
      '<' :: (name ++ '>' :: replaceGo ⟨lits (c0 :: ds), false⟩ tpl s prev2 0) := by
  have h := replaceGo_firstLit ⟨lits (c0 :: ds), false⟩ tpl c0 (lits ds) rfl
    ('<' :: (name ++ ['>'])) s prev (breakChar_not_mem_tag c0 hc0 name hn)
  refine ⟨prevAfter prev ('<' :: (name ++ ['>'])), ?_⟩
  simpa using h

theorem litPass_hit (c0 : Char) (ds rep s2 : Str) (prev : Option Char) :
    replaceGo ⟨lits (c0 :: ds), false⟩ [.text rep] (c0 :: (ds ++ s2)) prev 0 =
      rep ++ replaceGo ⟨lits (c0 :: ds), false⟩ [.text rep] (ds ++ s2) (some c0) ds.length := by
  have hm : Regex.matchAt ⟨lits (c0 :: ds), false⟩ prev (c0 :: (ds ++ s2)) =
      some ([], ds.length + 1) := by
    rw [litsPattern_matchAt]
    have : (c0 :: ds) <+: c0 :: (ds ++ s2) := by
      rw [List.cons_prefix_cons]
      exact ⟨rfl, List.prefix_append _ _⟩
    simp [this]
  rw [replaceGo, hm]
  simp [expand]

/-- A literal pattern whose replacement is made of tags keeps a tagged text tagged. -/
theorem tagged_litPass (c0 : Char) (ds rep : Str) (hc0 : c0 = '\n' ∨ c0 = '-')
    (hds : ∀ c ∈ ds, c ≠ '<') (hrep : ∀ x, Tagged x → Tagged (rep ++ x))
    (s : Str) (hs : Tagged s) :
    ∀ (pre suf : Str) (prev : Option Char), s = pre ++ suf → (∀ c ∈ pre, c ≠ '<') →
      Tagged (replaceGo ⟨lits (c0 :: ds), false⟩ [.text rep] s prev pre.length) := by
  induction hs with
  | nil =>
    intro pre suf prev _ _
    rw [litPass_nil _ (by simp)]
    exact Tagged.nil
  | chr c s h1 h2 _ ih =>
    intro pre suf prev e hpre
    cases pre with
    | nil =>
      by_cases hm : (c0 :: ds) <+: c :: s
      · rw [List.cons_prefix_cons] at hm
        obtain ⟨hc, s2, hs2⟩ := hm
        subst hc
        subst hs2
        show Tagged (replaceGo _ _ (c0 :: (ds ++ s2)) prev 0)
        rw [litPass_hit]
        exact hrep _ (ih ds s2 (some c0) rfl hds)
      · have hmiss : Regex.matchAt ⟨lits (c0 :: ds), false⟩ prev (c :: s) = none := by
          rw [litsPattern_matchAt, if_neg hm]
        show Tagged (replaceGo _ _ (c :: s) prev 0)
        rw [replaceGo_miss_cons _ _ _ _ _ hmiss]
        exact Tagged.chr c _ h1 h2 (ih [] s (some c) rfl (by simp))
    | cons x pre2 =>
      simp only [List.cons_append, List.cons.injEq] at e
      show Tagged (replaceGo _ _ (c :: s) prev (pre2.length + 1))
      rw [replaceGo]
      exact ih pre2 suf (some c) e.2 (fun d hd => hpre d (List.mem_cons_of_mem _ hd))
  | tag name s hn _ ih =>
    intro pre suf prev e hpre
    cases pre with
    | nil =>
      obtain ⟨prev2, h⟩ := litPass_tag c0 ds hc0 [.text rep] name s hn prev
      show Tagged (replaceGo _ _ ('<' :: (name ++ '>' :: s)) prev 0)
      rw [h]
      exact Tagged.tag name _ hn (ih [] s prev2 rfl (by simp))
    | cons x pre2 =>
      simp only [List.cons_append, List.cons.injEq] at e
      exact absurd e.1.symm (hpre x (List.mem_cons_self _ _))

/-- A literal pattern whose replacement is neutral for the scan of the tags does not
change the outcome of the scan. -/
theorem nest_litPass (c0 : Char) (ds rep : Str) (hc0 : c0 = '\n' ∨ c0 = '-')
    (hc0p : c0 ≠ '<') (hds : ∀ c ∈ ds, c ≠ '<')
    (hrep : ∀ st X, nestGo st none (rep ++ X) = nestGo st none X)
    (s : Str) (hs : Tagged s) :
    ∀ (pre suf : Str) (prev : Option Char) (st : List Str) (rest : Str), s = pre ++ suf →
      (∀ c ∈ pre, c ≠ '<') →
      nestGo st none
          (replaceGo ⟨lits (c0 :: ds), false⟩ [.text rep] s prev pre.length ++ rest) =
        nestGo st none (suf ++ rest) := by
  induction hs with
  | nil =>
    intro pre suf prev st rest e _
    rw [litPass_nil _ (by simp)]
    have : suf = [] := by
      cases pre with
      | nil => simpa using e.symm
      | cons x xs => simp at e
    rw [this]
  | chr c s h1 h2 _ ih =>
    intro pre suf prev st rest e hpre
    cases pre with
    | nil =>
      have hsuf : suf = c :: s := by simpa using e.symm
      subst hsuf
      by_cases hm : (c0 :: ds) <+: c :: s
      · rw [List.cons_prefix_cons] at hm
        obtain ⟨hc, s2, hs2⟩ := hm
        subst hc
        subst hs2
        show nestGo st none (replaceGo _ _ (c0 :: (ds ++ s2)) prev 0 ++ rest) = _
        rw [litPass_hit, List.append_assoc, hrep, ih ds s2 (some c0) st rest rfl hds]
        have h3 : ∀ d ∈ c0 :: ds, d ≠ '<' := by
          intro d hd
          rcases List.mem_cons.mp hd with h | h
          · rw [h]; exact hc0p
          · exact hds d h
        have h4 := nestGo_text st (c0 :: ds) (s2 ++ rest) h3
        simp only [List.cons_append, List.append_assoc] at h4 ⊢
        rw [h4]
      · have hmiss : Regex.matchAt ⟨lits (c0 :: ds), false⟩ prev (c :: s) = none := by
          rw [litsPattern_matchAt, if_neg hm]
        show nestGo st none (replaceGo _ _ (c :: s) prev 0 ++ rest) = _
        rw [replaceGo_miss_cons _ _ _ _ _ hmiss, List.cons_append, List.cons_append,
          nestGo_plain _ _ _ h1, nestGo_plain _ _ _ h1]
        exact ih [] s (some c) st rest rfl (by simp)
    | cons x pre2 =>
      simp only [List.cons_append, List.cons.injEq] at e
      show nestGo st none (replaceGo _ _ (c :: s) prev (pre2.length + 1) ++ rest) = _
      rw [replaceGo]
      exact ih pre2 suf (some c) st rest e.2 (fun d hd => hpre d (List.mem_cons_of_mem _ hd))
  | tag name s hn _ ih =>
    intro pre suf prev st rest e hpre
    cases pre with
    | nil =>
      have hsuf : suf = '<' :: (name ++ '>' :: s) := by simpa using e.symm
      subst hsuf
      obtain ⟨prev2, h⟩ := litPass_tag c0 ds hc0 [.text rep] name s hn prev
      show nestGo st none (replaceGo _ _ ('<' :: (name ++ '>' :: s)) prev 0 ++ rest) = _
      rw [h]
      have e1 := nestGo_tag st name (replaceGo ⟨lits (c0 :: ds), false⟩ [.text rep] s prev2 0
        ++ rest) (tagName_no_close name hn)
      have e2 := nestGo_tag st name (s ++ rest) (tagName_no_close name hn)
      simp only [List.cons_append, List.append_assoc] at e1 e2 ⊢
      rw [e1, e2]
      cases applyTag st name with
      | none => rfl
      | some st2 => exact ih [] s prev2 st2 rest rfl (by simp)
    | cons x pre2 =>
      simp only [List.cons_append, List.cons.injEq] at e
      exact absurd e.1.symm (hpre x (List.mem_cons_self _ _))

theorem wrap_shape (tag t X : Str) :
    wrap tag t ++ X = '<' :: (tag ++ '>' :: (t ++ '<' :: (('/' :: tag) ++ '>' :: X))) := by
  simp [wrap]

theorem elemTags_facts (tag : Str) (h : tag ∈ elemTags) :
    TagName tag ∧ TagName ('/' :: tag) ∧ '*' ∉ tag ∧ '`' ∉ tag ∧
    (∀ c ∈ tag, isLineTerminator c = false) ∧
    (∀ st, applyTag st tag = some (tag :: st)) ∧
    (∀ st, applyTag (tag :: st) ('/' :: tag) = some st) := by
  simp only [elemTags, List.mem_cons, List.mem_singleton, List.not_mem_nil, or_false] at h
  rcases h with h | h | h | h | h <;> subst h <;>
    refine ⟨by decide, by decide, by decide, by decide, by decide, ?_, ?_⟩ <;>
    intro st <;> simp [applyTag, tagH3, tagH2, tagH1, tagLi, tagCode]

theorem lineTags_sub (tag : Str) (h : tag ∈ lineTags) : tag ∈ elemTags := by
  simp only [lineTags, List.mem_cons, List.mem_singleton, List.not_mem_nil, or_false] at h
  simp only [elemTags, List.mem_cons, List.mem_singleton, List.not_mem_nil, or_false]
  tauto

/-- The scan passes over a wrapped text and is back where it was, when it is so for the
text itself. -/
theorem nestGo_wrap (st : List Str) (tag t X : Str) (htag : tag ∈ elemTags)
    (ht : ∀ st2 Y, nestGo st2 none (t ++ Y) = nestGo st2 none Y) :
    nestGo st none (wrap tag t ++ X) = nestGo st none X := by
  obtain ⟨h1, h2, _, _, _, h3, h4⟩ := elemTags_facts tag htag
  rw [wrap_shape, nestGo_tag _ _ _ (tagName_no_close _ h1), h3]
  show nestGo (tag :: st) none (t ++ '<' :: (('/' :: tag) ++ '>' :: X)) = _
  rw [ht, nestGo_tag _ _ _ (tagName_no_close _ h2), h4]

theorem tagged_wrap (tag t X : Str) (htag : tag ∈ elemTags)
    (ht : ∀ Y, Tagged Y → Tagged (t ++ Y)) (hX : Tagged X) : Tagged (wrap tag t ++ X) := by
  obtain ⟨h1, h2, _⟩ := elemTags_facts tag htag
  rw [wrap_shape]
  exact Tagged.tag tag _ h1 (ht _ (Tagged.tag ('/' :: tag) X h2 hX))

theorem mem_wrap_elem (tag t : Str) (htag : tag ∈ elemTags) (c : Char) (hc : c ∈ wrap tag t) :
    (c ≠ '*' ∧ c ≠ '`' ∧ isLineTerminator c = false) ∨ c ∈ t := by
  obtain ⟨_, _, h3, h4, h5, _⟩ := elemTags_facts tag htag
  rw [mem_wrap] at hc
  rcases hc with hc | hc | hc | hc | hc
  · subst hc; exact Or.inl (by decide)
  · subst hc; exact Or.inl (by decide)
  · subst hc; exact Or.inl (by decide)
  · exact Or.inl ⟨fun e => h3 (e ▸ hc), fun e => h4 (e ▸ hc), h5 c hc⟩
  · exact Or.inr hc

theorem raw_tagged (t X : Str) (ht : Raw t) (hX : Tagged X) : Tagged (t ++ X) := by
  induction t with
  | nil => exact hX
  | cons c tl ih =>
    have hc := ht c (List.mem_cons_self _ _)
    exact Tagged.chr c _ hc.1 hc.2.1 (ih (fun d hd => ht d (List.mem_cons_of_mem _ hd)))

theorem raw_nest (t : Str) (ht : Raw t) (st : List Str) (X : Str) :
    nestGo st none (t ++ X) = nestGo st none X :=
  nestGo_text st t X (fun c hc => (ht c hc).1)

/-- The texts of input lines are a body class. -/
theorem rawClass : BodyClass Raw where
  noBreak := fun _ ht c hc => (ht c hc).2.2.2
  noStar := fun _ ht h => (ht _ h).2.2.1 rfl
  nest := fun t ht st X => raw_nest t ht st X
  tagged := fun t ht X hX => raw_tagged t X ht hX
  dropPrefix := fun _ _ h _ c hc => h c (List.mem_append_right _ hc)

theorem flow_noBreak (t : Str) (h : Flow t) : ∀ c ∈ t, isLineTerminator c = false := by
  induction h with
  | nil => exact fun _ h => absurd h (List.not_mem_nil _)
  | chr c s hc _ ih =>
    intro d hd
    rcases List.mem_cons.mp hd with e | e
    · rw [e]; exact (hc c (List.mem_singleton.mpr rfl)).2.2.2
    · exact ih d e
  | code x s hx _ ih =>
    intro d hd
    rcases List.mem_append.mp hd with e | e
    · rcases mem_wrap_elem tagCode x (by simp [elemTags]) d e with h1 | h1
      · exact h1.2.2
      · exact (hx d h1).2.2.2
    · exact ih d e

theorem flow_noStar (t : Str) (h : Flow t) : '*' ∉ t := by
  induction h with
  | nil => exact List.not_mem_nil _
  | chr c s hc _ ih =>
    intro hd
    rcases List.mem_cons.mp hd with e | e
    · exact (hc c (List.mem_singleton.mpr rfl)).2.2.1 e.symm
    · exact ih e
  | code x s hx _ ih =>
    intro hd
    rcases List.mem_append.mp hd with e | e
    · rcases mem_wrap_elem tagCode x (by simp [elemTags]) _ e with h1 | h1
      · exact h1.1 rfl
      · exact (hx _ h1).2.2.1 rfl
    · exact ih e

theorem flow_nest (t : Str) (h : Flow t) :
    ∀ st X, nestGo st none (t ++ X) = nestGo st none X := by
  induction h with
  | nil => exact fun _ _ => rfl
  | chr c s hc _ ih =>
    intro st X
    rw [List.cons_append, nestGo_plain _ _ _ (hc c (List.mem_singleton.mpr rfl)).1, ih]
  | code x s hx _ ih =>
    intro st X
    rw [List.append_assoc, nestGo_wrap st tagCode x _ (by simp [elemTags])
      (fun st2 Y => raw_nest x hx st2 Y), ih]

theorem flow_tagged (t : Str) (h : Flow t) : ∀ X, Tagged X → Tagged (t ++ X) := by
  induction h with
  | nil => exact fun _ hX => hX
  | chr c s hc _ ih =>
    intro X hX
    have h1 := hc c (List.mem_singleton.mpr rfl)
    exact Tagged.chr c _ h1.1 h1.2.1 (ih X hX)
  | code x s hx _ ih =>
    intro X hX
    rw [List.append_assoc]
    exact tagged_wrap tagCode x _ (by simp [elemTags]) (fun Y hY => raw_tagged x Y hx hY)
      (ih X hX)

theorem flow_tail (l : Str) (h : Flow l) :
    ∀ a rest, l = a :: rest → a ≠ '<' → Flow rest := by
  cases h with
  | nil => exact fun _ _ e _ => absurd e (by simp)
  | chr c s _ hs =>
    intro a rest e _
    simp only [List.cons.injEq] at e
    rw [← e.2]
    exact hs
  | code x s _ _ =>
    intro a rest e ha
    exfalso
    rw [wrap_shape] at e
    simp only [List.cons.injEq] at e
    exact ha e.1.symm

theorem flow_dropPrefix (pre r : Str) (h : Flow (pre ++ r)) (hp : '<' ∉ pre) : Flow r := by
  induction pre with
  | nil => exact h
  | cons a as ih =>
    have h2 := flow_tail _ h a (as ++ r) rfl (fun e => hp (e ▸ List.mem_cons_self _ _))
    exact ih h2 (fun e => hp (List.mem_cons_of_mem _ e))

/-- The texts of lines after the code pass are a body class. -/
theorem flowClass : BodyClass Flow where
  noBreak := flow_noBreak
  noStar := flow_noStar
  nest := flow_nest
  tagged := flow_tagged
  dropPrefix := flow_dropPrefix

theorem raw_flow (t : Str) (h : Raw t) : Flow t := by
  induction t with
  | nil => exact Flow.nil
  | cons c tl ih =>
    refine Flow.chr c tl ?_ (ih (fun d hd => h d (List.mem_cons_of_mem _ hd)))
    intro d hd
    rw [List.mem_singleton.mp hd]
    exact h c (List.mem_cons_self _ _)

theorem nestGo_line {B : Str → Prop} (hB : BodyClass B) (st : List Str) (l X : Str)
    (hl : Line B l) : nestGo st none (l ++ X) = nestGo st none X := by
  cases hl with
  | text t ht => exact hB.nest l ht st X
  | elem tag t htag ht => exact nestGo_wrap st tag t X (lineTags_sub tag htag) (hB.nest t ht)

theorem tagged_line {B : Str → Prop} (hB : BodyClass B) (l X : Str) (hl : Line B l)
    (hX : Tagged X) : Tagged (l ++ X) := by
  cases hl with
  | text t ht => exact hB.tagged l ht X hX
  | elem tag t htag ht => exact tagged_wrap tag t X (lineTags_sub tag htag) (hB.tagged t ht) hX

theorem lineTerminator_plain (c : Char) (hc : isLineTerminator c = true) :
    c ≠ '<' ∧ c ≠ '>' ∧ c ≠ '*' ∧ c ≠ '`' ∧ c ≠ '-' := by
  refine ⟨?_, ?_, ?_, ?_, ?_⟩ <;> (intro h; subst h; revert hc; decide)

theorem tagged_doc {B : Str → Prop} (hB : BodyClass B) (d : Str) (hd : Doc B d) :
    Tagged d := by
  induction hd with
  | last l hl =>
    have := tagged_line hB l [] hl Tagged.nil
    simpa using this
  | more l c rest hl hc _ ih =>
    have hp := lineTerminator_plain c hc
    exact tagged_line hB l _ hl (Tagged.chr c rest hp.1 hp.2.1 ih)

theorem line_noBreak {B : Str → Prop} (hB : BodyClass B) (l : Str) (hl : Line B l) :
    ∀ c ∈ l, isLineTerminator c = false := by
  cases hl with
  | text t h => exact hB.noBreak l h
  | elem tag t htag h =>
    intro c hc
    rcases mem_wrap_elem tag t (lineTags_sub tag htag) c hc with h1 | h1
    · exact h1.2.2
    · exact hB.noBreak t h c h1

theorem line_noStar {B : Str → Prop} (hB : BodyClass B) (l : Str) (hl : Line B l) :
    '*' ∉ l := by
  cases hl with
  | text t h => exact hB.noStar l h
  | elem tag t htag h =>
    intro hc
    rcases mem_wrap_elem tag t (lineTags_sub tag htag) _ hc with h1 | h1
    · exact h1.1 rfl
    · exact hB.noStar t h h1

theorem doc_noStar {B : Str → Prop} (hB : BodyClass B) (d : Str) (hd : Doc B d) :
    '*' ∉ d := by
  induction hd with
  | last l hl => exact line_noStar hB l hl
  | more l c rest hl hc _ ih =>
    have hp := lineTerminator_plain c hc
    intro h
    rcases List.mem_append.mp h with h | h
    · exact line_noStar hB l hl h
    · rcases List.mem_cons.mp h with h | h
      · exact hp.2.2.1 h.symm
      · exact ih h

/-- Every text without `<`, `>` and `*` is a text of lines. -/
theorem doc_of_noMarkup (s : Str) (hs : NoMarkup s) :
    ∀ l : Str, Raw l → Doc Raw (l ++ s) := by
  induction s with
  | nil =>
    intro l hl
    rw [List.append_nil]
    exact Doc.last l (Line.text l hl)
  | cons c tl ih =>
    intro l hl
    have htl : NoMarkup tl := fun d hd => hs d (List.mem_cons_of_mem _ hd)
    by_cases hc : isLineTerminator c = true
    · have := ih htl [] (fun _ h => absurd h (List.not_mem_nil _))
      exact Doc.more l c tl (Line.text l hl) hc this
    · have hc2 : isLineTerminator c = false := by simpa using hc
      have hcs := hs c (List.mem_cons_self _ _)
      have h2 := ih htl (l ++ [c])
        (fun d hd => by
          rcases List.mem_append.mp hd with h | h
          · exact hl d h
          · rw [List.mem_singleton.mp h]; exact ⟨hcs.1, hcs.2.1, hcs.2.2, hc2⟩)
      simpa using h2

theorem linePattern_linePass (p : Str) (hne : p ≠ [])
    (hp : ∀ c ∈ p, isLineTerminator c = false) (hopen : '<' ∉ p) :
    LinePass ⟨.bol :: lits p ++ restOfLine, true⟩ where
  isLine := linePattern_isLineRegex p hne hp
  split := by
    intro l hl
    by_cases h : p <+: l
    · obtain ⟨r, hr⟩ := h
      subst hr
      refine Or.inr ⟨p, r, rfl, hne, hopen, ?_⟩
      intro prev t hb ht
      have hr : ∀ c ∈ r, isLineTerminator c = false :=
        fun c hc => hl c (List.mem_append_right _ hc)
      rw [linePattern_matchAt, if_pos ⟨hb, by simp⟩]
      simp [lineOf_append_of_break r t hr ht]
    · refine Or.inl (fun prev => ?_)
      rw [linePattern_matchAt]
      simp [h]

theorem numbered_linePass : LinePass reNumbered where
  isLine := reNumbered_isLineRegex
  split := by
    intro l hl
    by_cases h : beginsNumbered l = true
    · obtain ⟨n, r, hne, hn, e⟩ := (beginsNumbered_iff l).mp h
      subst e
      have hopen : '<' ∉ n ++ ['.', ' '] := by
        intro hh
        rcases List.mem_append.mp hh with h1 | h1
        · have := hn _ h1
          revert this
          decide
        · revert h1
          decide
      refine Or.inr ⟨n ++ ['.', ' '], r, rfl, by simp, hopen, ?_⟩
      intro prev t hb ht
      have hr : ∀ c ∈ r, isLineTerminator c = false :=
        fun c hc => hl c (List.mem_append_right _ hc)
      have htk : (n ++ ['.', ' '] ++ r ++ t).takeWhile isAsciiDigit = n := by
        rw [List.append_assoc, List.append_assoc, List.takeWhile_append_of_pos hn]
        simp [List.takeWhile_cons, isAsciiDigit]
      have hdk : (n ++ ['.', ' '] ++ r ++ t).dropWhile isAsciiDigit = ['.', ' '] ++ (r ++ t) := by
        rw [List.append_assoc, List.append_assoc, List.dropWhile_append_of_pos hn]
        simp [List.dropWhile_cons, isAsciiDigit]
      have hb2 : beginsNumbered (n ++ ['.', ' '] ++ r ++ t) = true := by
        rw [beginsNumbered_iff]
        exact ⟨n, r ++ t, hne, hn, by simp⟩
      rw [reNumbered_matchAt, htk, hdk, if_pos ⟨hb, hb2⟩]
      simp [lineOf_append_of_break r t hr ht]
      omega
    · have h2 : beginsNumbered l = false := by simpa using h
      refine Or.inl (fun prev => ?_)
      rw [reNumbered_matchAt]
      simp [h2]

theorem atBol_of_lineTerminator (c : Char) (hc : isLineTerminator c = true) :
    atBol true (some c) = true := by
  simp [atBol, hc]

/-- A wrapped text does not begin with a non-empty prefix that has no `<`. -/
theorem wrap_not_begins (tag t pre r : Str) (e : wrap tag t = pre ++ r) (hne : pre ≠ [])
    (hopen : '<' ∉ pre) : False := by
  cases pre with
  | nil => exact hne rfl
  | cons x xs =>
    have e2 := wrap_shape tag t []
    rw [List.append_nil, e] at e2
    simp only [List.cons_append, List.cons.injEq] at e2
    exact hopen (e2.1 ▸ List.mem_cons_self _ _)

/-- A line pass maps a text of lines to a text of lines. -/
theorem doc_linePass {B : Str → Prop} (hB : BodyClass B) (re : Regex) (tag : Str)
    (hre : LinePass re) (htag : tag ∈ lineTags) (d : Str) (hd : Doc B d) :
    ∀ prev, atBol true prev = true → Doc B (replaceGo re (wrapTpl tag) d prev 0) := by
  induction hd with
  | last l hl =>
    intro prev hb
    have hnb := line_noBreak hB l hl
    rcases hre.split l hnb with hmiss | ⟨pre, r, e, hne, hopen, hhit⟩
    · have h := replaceGo_line re hre.isLine (wrapTpl tag) l [] prev hnb rfl (hmiss prev)
      rw [List.append_nil] at h
      rw [h, replaceGo_nil _ _ _ _ (hre.isLine.atNil _), List.append_nil]
      exact Doc.last l hl
    · cases hl with
      | elem tag2 t _ _ => exact (wrap_not_begins tag2 t pre r e hne hopen).elim
      | text t ht =>
        have hr : B r := hB.dropPrefix pre r (e ▸ ht) hopen
        have hlne : l ≠ [] := by
          rw [e]
          simp [hne]
        have h := replaceGo_hit re (wrapTpl tag) l [] r prev hlne (hhit prev [] hb rfl)
        rw [List.append_nil] at h
        rw [h, replaceGo_nil _ _ _ _ (hre.isLine.atNil _), List.append_nil, expand_wrapTpl]
        exact Doc.last _ (Line.elem tag r htag hr)
  | more l c rest hl hc _ ih =>
    intro prev hb
    have hnb := line_noBreak hB l hl
    have ht : lineOf (c :: rest) = [] := by simp [lineOf, List.takeWhile_cons, hc]
    have hrest := ih (some c) (atBol_of_lineTerminator c hc)
    rcases hre.split l hnb with hmiss | ⟨pre, r, e, hne, hopen, hhit⟩
    · rw [replaceGo_line re hre.isLine (wrapTpl tag) l (c :: rest) prev hnb ht (hmiss prev),
        replaceGo_line_break re hre.isLine (wrapTpl tag) c rest _ hc]
      exact Doc.more l c _ hl hc hrest
    · cases hl with
      | elem tag2 t _ _ => exact (wrap_not_begins tag2 t pre r e hne hopen).elim
      | text t ht2 =>
        have hr : B r := hB.dropPrefix pre r (e ▸ ht2) hopen
        have hlne : l ≠ [] := by
          rw [e]
          simp [hne]
        rw [replaceGo_hit re (wrapTpl tag) l (c :: rest) r prev hlne (hhit prev _ hb ht),
          replaceGo_line_break re hre.isLine (wrapTpl tag) c rest _ hc, expand_wrapTpl]
        exact Doc.more _ c _ (Line.elem tag r htag hr) hc hrest

theorem doc_replace {B : Str → Prop} (hB : BodyClass B) (re : Regex) (tag : Str)
    (hre : LinePass re) (htag : tag ∈ lineTags) (d : Str) (hd : Doc B d) :
    Doc B (replace re (wrapTpl tag) d) :=
  doc_linePass hB re tag hre htag d hd none rfl

/-! ### The code pass on a text of lines -/

theorem split_first (c : Char) (l : Str) (h : c ∈ l) :
    ∃ x r, l = x ++ c :: r ∧ c ∉ x := by
  induction l with
  | nil => exact absurd h (List.not_mem_nil _)
  | cons a tl ih =>
    by_cases ha : a = c
    · exact ⟨[], tl, by simp [ha], List.not_mem_nil _⟩
    · have htl : c ∈ tl := by
        rcases List.mem_cons.mp h with e | e
        · exact absurd e.symm ha
        · exact e
      obtain ⟨x, r, e, hx⟩ := ih htl
      refine ⟨a :: x, r, by simp [e], ?_⟩
      intro hm
      rcases List.mem_cons.mp hm with e2 | e2
      · exact ha e2.symm
      · exact hx e2

/-- The code pattern fails at a backtick that has no closing backtick on its line. -/
theorem code_fail (y after : Str) (prev : Option Char)
    (hy : ∀ c ∈ y, c ≠ '`' ∧ isLineTerminator c = false) (ha : lineOf after = []) :
    reCode.matchAt prev ('`' :: (y ++ after)) = none := by
  unfold Regex.matchAt reCode
  simp only [List.append_assoc]
  rw [matchNodes_lits, if_pos (by simp [List.cons_prefix_cons])]
  show matchNodes false
    (Node.openGroup :: Node.star .dot false :: Node.closeGroup :: lits ['`']) _
    (y ++ after) = none
  rw [matchNodes, matchNodes]
  have hk : ∀ (st : MState) (a : Char) (tl : Str), a ≠ '`' →
      matchNodes false (Node.closeGroup :: lits ['`']) st (a :: tl) = none := by
    intro st a tl ha2
    rw [matchNodes]
    exact matchNodes_lit_head _ _ _ _ _ (by simpa using ha2)
  rw [starLoop_lazy_run _ _ y _ (fun a ha2 => by simp [CharSet.test, (hy a ha2).2])
    (fun st a tl ha2 => hk st a tl (hy a ha2).1)]
  cases after with
  | nil =>
    simp only [starLoop]
    rw [matchNodes]
    exact matchNodes_lit_head _ _ _ _ _ (by simp)
  | cons a tl =>
    have hlt : isLineTerminator a = true := by
      by_contra hn
      have hn2 : isLineTerminator a = false := by simpa using hn
      simp [lineOf, List.takeWhile_cons, hn2] at ha
    have hne : a ≠ '`' := (lineTerminator_plain a hlt).2.2.2.1
    simp only [starLoop, CharSet.test, hlt, Bool.not_true, Bool.false_eq_true, if_false]
    exact hk _ a tl hne

theorem code_miss_char (c : Char) (tl : Str) (prev : Option Char) (hc : c ≠ '`') :
    reCode.matchAt prev (c :: tl) = none := by
  unfold Regex.matchAt
  exact matchNodes_lit_head _ _ _ _ _ (by simpa using hc)

/-- The code pass on the text of one input line, followed by text without backtick up to
the end of the line: the line text becomes a flow text, what follows is kept. -/
theorem code_line (n : Nat) :
    ∀ (t : Str), t.length ≤ n → Raw t → ∀ (close after : Str) (prev : Option Char),
      (∀ c ∈ close, c ≠ '`' ∧ isLineTerminator c = false) → lineOf after = [] →
      ∃ f prev2, Flow f ∧
        replaceGo reCode (wrapTpl tagCode) (t ++ (close ++ after)) prev 0 =
          f ++ (close ++ replaceGo reCode (wrapTpl tagCode) after prev2 0) := by
  induction n with
  | zero =>
    intro t hlen _ close after prev hclose _
    have ht : t = [] := List.length_eq_zero.mp (Nat.le_zero.mp hlen)
    subst ht
    refine ⟨[], prevAfter prev close, Flow.nil, ?_⟩
    rw [List.nil_append, List.nil_append]
    exact replaceGo_firstLit reCode _ '`' _ rfl close after prev
      (fun h => (hclose _ h).1 rfl)
  | succ k ih =>
    intro t hlen ht close after prev hclose hafter
    cases t with
    | nil =>
      refine ⟨[], prevAfter prev close, Flow.nil, ?_⟩
      rw [List.nil_append, List.nil_append]
      exact replaceGo_firstLit reCode _ '`' _ rfl close after prev
        (fun h => (hclose _ h).1 rfl)
    | cons c t2 =>
      have hlen2 : t2.length ≤ k := by
        simp only [List.length_cons] at hlen
        omega
      have ht2 : Raw t2 := fun d hd => ht d (List.mem_cons_of_mem _ hd)
      have hc : Raw [c] := by
        intro d hd
        rw [List.mem_singleton.mp hd]
        exact ht c (List.mem_cons_self _ _)
      by_cases hct : c = '`'
      swap
      · obtain ⟨f, prev2, hf, e⟩ := ih t2 hlen2 ht2 close after (some c) hclose hafter
        refine ⟨c :: f, prev2, Flow.chr c f hc hf, ?_⟩
        rw [List.cons_append, replaceGo_miss_cons _ _ _ _ _ (code_miss_char c _ prev hct), e]
        rfl
      subst hct
      by_cases htick : '`' ∈ t2
      · obtain ⟨x, r, e, hx⟩ := split_first '`' t2 htick
        subst e
        have hxr : Raw x := fun d hd => ht2 d (List.mem_append_left _ hd)
        have hr : Raw r := fun d hd =>
          ht2 d (List.mem_append_right _ (List.mem_cons_of_mem _ hd))
        have hlen3 : r.length ≤ k := by
          simp only [List.length_append, List.length_cons] at hlen2
          omega
        obtain ⟨f, prev2, hf, e2⟩ := ih r hlen3 hr close after
          (prevAfter prev (['`'] ++ x ++ ['`'])) hclose hafter
        have hm : reCode.matchAt prev ((['`'] ++ x ++ ['`']) ++ (r ++ (close ++ after))) =
            some (x, (['`'] ++ x ++ ['`']).length) := by
          have := inline_matchAt '`' [] x (r ++ (close ++ after)) prev hx
            (fun a ha => (hxr a ha).2.2.2)
          rw [List.append_assoc (['`'] ++ x)]
          exact this
        have hit := replaceGo_hit reCode (wrapTpl tagCode) (['`'] ++ x ++ ['`'])
          (r ++ (close ++ after)) x prev (by simp) hm
        refine ⟨wrap tagCode x ++ f, prev2, Flow.code x f hxr hf, ?_⟩
        have hshape : ('`' :: (x ++ '`' :: r)) ++ (close ++ after) =
            (['`'] ++ x ++ ['`']) ++ (r ++ (close ++ after)) := by simp
        rw [hshape, hit, e2, expand_wrapTpl, List.append_assoc]
      · have hy : ∀ d ∈ t2 ++ close, d ≠ '`' ∧ isLineTerminator d = false := by
          intro d hd
          rcases List.mem_append.mp hd with h | h
          · exact ⟨fun e => htick (e ▸ h), (ht2 d h).2.2.2⟩
          · exact hclose d h
        have hmiss : reCode.matchAt prev ('`' :: (t2 ++ (close ++ after))) = none := by
          have := code_fail (t2 ++ close) after prev hy hafter
          simpa using this
        obtain ⟨f, prev2, hf, e⟩ := ih t2 hlen2 ht2 close after (some '`') hclose hafter
        refine ⟨'`' :: f, prev2, Flow.chr '`' f hc hf, ?_⟩
        rw [List.cons_append, replaceGo_miss_cons _ _ _ _ _ hmiss, e]
        rfl

/-- The code pass on one line of input text, whatever follows the line. -/
theorem code_over_line (l after : Str) (prev : Option Char) (hl : Line Raw l)
    (hafter : lineOf after = []) :
    ∃ l2 prev2, Line Flow l2 ∧
      replaceGo reCode (wrapTpl tagCode) (l ++ after) prev 0 =
        l2 ++ replaceGo reCode (wrapTpl tagCode) after prev2 0 := by
  cases hl with
  | text t ht =>
    obtain ⟨f, prev2, hf, e⟩ := code_line l.length l (Nat.le_refl _) ht [] after prev
      (fun _ h => absurd h (List.not_mem_nil _)) hafter
    exact ⟨f, prev2, Line.text f hf, by simpa using e⟩
  | elem tag t htag ht =>
    obtain ⟨h1, h2, _, h4, h5, _⟩ := elemTags_facts tag (lineTags_sub tag htag)
    have hopen : '`' ∉ '<' :: (tag ++ ['>']) := by
      intro h
      simp only [List.mem_cons, List.mem_append, List.mem_singleton, List.not_mem_nil,
        or_false] at h
      rcases h with h | h | h
      · revert h; decide
      · exact h4 h
      · revert h; decide
    have hclose : ∀ c ∈ '<' :: (('/' :: tag) ++ ['>']), c ≠ '`' ∧ isLineTerminator c = false := by
      intro c h
      simp only [List.mem_cons, List.mem_append, List.mem_singleton, List.not_mem_nil,
        or_false] at h
      rcases h with h | (h | h) | h
      · subst h; exact ⟨by decide, by decide⟩
      · subst h; exact ⟨by decide, by decide⟩
      · exact ⟨fun e => h4 (e ▸ h), h5 c h⟩
      · subst h; exact ⟨by decide, by decide⟩
    obtain ⟨f, prev2, hf, e⟩ := code_line t.length t (Nat.le_refl _) ht
      ('<' :: (('/' :: tag) ++ ['>'])) after (prevAfter prev ('<' :: (tag ++ ['>'])))
      hclose hafter
    refine ⟨wrap tag f, prev2, Line.elem tag f htag hf, ?_⟩
    have hshape : wrap tag t ++ after =
        ('<' :: (tag ++ ['>'])) ++ (t ++ ('<' :: (('/' :: tag) ++ ['>']) ++ after)) := by
      simp [wrap]
    rw [hshape, replaceGo_firstLit reCode _ '`' _ rfl _ _ prev hopen, e]
    simp [wrap]

/-- The code pass maps a text of input lines to a text of lines of flow text. -/
theorem doc_codePass (d : Str) (hd : Doc Raw d) :
    ∀ prev, Doc Flow (replaceGo reCode (wrapTpl tagCode) d prev 0) := by
  induction hd with
  | last l hl =>
    intro prev
    obtain ⟨l2, prev2, hl2, e⟩ := code_over_line l [] prev hl rfl
    rw [List.append_nil] at e
    rw [e, replaceGo_nil _ _ _ _ (matchAt_firstLit_nil reCode '`' _ rfl _), List.append_nil]
    exact Doc.last l2 hl2
  | more l c rest hl hc _ ih =>
    intro prev
    have hafter : lineOf (c :: rest) = [] := by simp [lineOf, List.takeWhile_cons, hc]
    obtain ⟨l2, prev2, hl2, e⟩ := code_over_line l (c :: rest) prev hl hafter
    rw [e, replaceGo_miss_cons _ _ _ _ _
      (code_miss_char c rest prev2 (lineTerminator_plain c hc).2.2.2.1)]
    exact Doc.more l2 c _ hl2 hc (ih (some c))

/-! ### The last three passes and the outcome of the scan -/

theorem nestGo_parBreak (st : List Str) (X : Str) :
    nestGo (['p'] :: st) none (parBreak ++ X) = nestGo (['p'] :: st) none X := by
  simp [nestGo, parBreak, applyTag]

theorem nestGo_lineBreak (st : List Str) (X : Str) :
    nestGo st none (lineBreak ++ X) = nestGo st none X := by
  simp [nestGo, lineBreak, applyTag]

theorem nestGo_hRule (st : List Str) (X : Str) :
    nestGo st none (hRule ++ X) = nestGo st none X := by
  simp [nestGo, hRule, applyTag]

theorem tagged_parBreak (x : Str) (hx : Tagged x) : Tagged (parBreak ++ x) :=
  Tagged.tag ['/', 'p'] _ (by decide) (Tagged.tag ['p'] x (by decide) hx)

theorem tagged_lineBreak (x : Str) (hx : Tagged x) : Tagged (lineBreak ++ x) :=
  Tagged.tag ['b', 'r', '/'] x (by decide) hx

theorem tagged_hRule (x : Str) (hx : Tagged x) : Tagged (hRule ++ x) :=
  Tagged.tag ['h', 'r', '/'] x (by decide) hx

/-- Inside a paragraph, the scan passes over the output of the blank-line pass on a text
of lines and is back where it was: `</p><p>` is only written between lines. -/
theorem nest_blankPass {B : Str → Prop} (hB : BodyClass B) (d : Str) (hd : Doc B d) :
    ∀ (prev : Option Char) (st : List Str) (rest : Str),
      nestGo (['p'] :: st) none
          (replaceGo reBlankLine [.text parBreak] d prev 0 ++ rest) =
        nestGo (['p'] :: st) none rest ∧
      (∀ d2, d = '\n' :: d2 →
        nestGo (['p'] :: st) none
            (replaceGo reBlankLine [.text parBreak] d prev 1 ++ rest) =
          nestGo (['p'] :: st) none rest) := by
  induction hd with
  | last l hl =>
    intro prev st rest
    have hnb := line_noBreak hB l hl
    constructor
    · have h := replaceGo_firstLit reBlankLine [.text parBreak] '\n' _ rfl l [] prev
        (newline_not_mem l hnb)
      rw [List.append_nil] at h
      rw [h, replaceGo_nil _ _ _ _ (matchAt_firstLit_nil _ '\n' _ rfl _), List.append_nil,
        nestGo_line hB _ _ _ hl]
    · intro d2 e
      exfalso
      have := hnb '\n' (e ▸ List.mem_cons_self _ _)
      revert this
      decide
  | more l c rest2 hl hc _ ih =>
    intro prev st rest
    have hnb := line_noBreak hB l hl
    have hp := lineTerminator_plain c hc
    constructor
    · rw [replaceGo_firstLit reBlankLine [.text parBreak] '\n' _ rfl l _ prev
        (newline_not_mem l hnb), List.append_assoc, nestGo_line hB _ _ _ hl]
      by_cases hm : blankLine <+: c :: rest2
      · simp only [blankLine, List.cons_prefix_cons] at hm
        obtain ⟨hc1, s2, hs2⟩ := hm
        subst hc1
        have hs3 : rest2 = '\n' :: s2 := by simpa using hs2.symm
        have hit := litPass_hit '\n' ['\n'] parBreak s2 (prevAfter prev l)
        have hit2 : replaceGo reBlankLine [.text parBreak] ('\n' :: rest2) (prevAfter prev l) 0 =
            parBreak ++ replaceGo reBlankLine [.text parBreak] rest2 (some '\n') 1 := by
          rw [hs3]
          exact hit
        rw [hit2, List.append_assoc, nestGo_parBreak]
        exact (ih (some '\n') st rest).2 s2 hs3
      · have hmiss : reBlankLine.matchAt (prevAfter prev l) (c :: rest2) = none := by
          have := litsPattern_matchAt blankLine (prevAfter prev l) (c :: rest2)
          rw [if_neg hm] at this
          exact this
        rw [replaceGo_miss_cons _ _ _ _ _ hmiss, List.cons_append,
          nestGo_plain _ _ _ hp.1]
        exact (ih (some c) st rest).1
    · intro d2 e
      cases l with
      | cons x xs =>
        exfalso
        simp only [List.cons_append, List.cons.injEq] at e
        have := hnb x (List.mem_cons_self _ _)
        rw [e.1] at this
        revert this
        decide
      | nil =>
        simp only [List.nil_append, List.cons.injEq] at e
        show nestGo (['p'] :: st) none
          (replaceGo reBlankLine [.text parBreak] (c :: rest2) prev 1 ++ rest) = _
        rw [replaceGo]
        exact (ih (some c) st rest).1

/-- C16 (amended): for every input that contains none of `<`, `>` and `*`, the markup
that `formatContent` returns is well nested: every opening tag is closed by its matching
closing tag in last-opened-first-closed order, `<br/>` and `<hr/>` being self-closing. -/
theorem C16_well_nested_without_stars (s : Str) (hs : NoMarkup s) :
    wellNested (formatContent (some s)) = true := by
  by_cases hne : s = []
  · subst hne
    rfl
  have d0 : Doc Raw s := by
    have := doc_of_noMarkup s hs [] (fun _ h => absurd h (List.not_mem_nil _))
    simpa using this
  have d1 : Doc Raw (replace reH3 (wrapTpl tagH3) s) :=
    doc_replace rawClass _ tagH3 (linePattern_linePass ['#', '#', '#', ' '] (by simp)
      (by decide) (by decide)) (by simp [lineTags]) s d0
  have d2 : Doc Raw (replace reH2 (wrapTpl tagH2) (replace reH3 (wrapTpl tagH3) s)) :=
    doc_replace rawClass _ tagH2 (linePattern_linePass ['#', '#', ' '] (by simp)
      (by decide) (by decide)) (by simp [lineTags]) _ d1
  have d3 := doc_replace rawClass reH1 tagH1 (linePattern_linePass ['#', ' '] (by simp)
      (by decide) (by decide)) (by simp [lineTags]) _ d2
  have hstar := doc_noStar rawClass _ d3
  have dc : Doc Flow (replace reCode (wrapTpl tagCode) _) := doc_codePass _ d3 none
  have d4 := doc_replace flowClass reBullet tagLi (linePattern_linePass ['-', ' '] (by simp)
      (by decide) (by decide)) (by simp [lineTags]) _ dc
  have d5 := doc_replace flowClass reNumbered tagLi numbered_linePass (by simp [lineTags])
    _ d4
  have t5 := tagged_doc flowClass _ d5
  have t6 := tagged_litPass '\n' ['\n'] parBreak (Or.inl rfl) (by decide) tagged_parBreak
    _ t5 [] _ none rfl (by simp)
  have t7 := tagged_litPass '\n' [] lineBreak (Or.inl rfl) (by simp) tagged_lineBreak
    _ t6 [] _ none rfl (by simp)
  have n8 := nest_litPass '-' ['-', '-'] hRule (Or.inr rfl) (by decide) (by decide)
    nestGo_hRule _ t7 [] _ none [['p']] pClose rfl (by simp)
  have n7 := nest_litPass '\n' [] lineBreak (Or.inl rfl) (by decide) (by simp)
    nestGo_lineBreak _ t6 [] _ none [['p']] pClose rfl (by simp)
  have n6 := (nest_blankPass flowClass _ d5 none [] pClose).1
  have hfmt : formatHtml s =
      replace reRule [.text hRule] (replace reNewline [.text lineBreak]
        (replace reBlankLine [.text parBreak]
          (replace reNumbered (wrapTpl tagLi) (replace reBullet (wrapTpl tagLi)
            (replace reCode (wrapTpl tagCode)
              (replace reH1 (wrapTpl tagH1) (replace reH2 (wrapTpl tagH2)
                (replace reH3 (wrapTpl tagH3) s)))))))) := by
    unfold formatHtml
    rw [pass_bold _ _ hstar, pass_italic _ _ hstar]
  have hopen : ∀ X, nestGo [] none (pOpen ++ X) = nestGo [['p']] none X := by
    intro X
    simp [nestGo, pOpen, applyTag]
  simp only [formatContent, hne, if_false, wellNested, hfmt]
  rw [List.append_assoc, hopen]
  exact (n8.trans (n7.trans n6)).trans (by decide)

/-- C16 (amended) at an input with headers, list items, code spans, a rule, blank
lines and a carriage return. -/
theorem C16_well_nested_without_stars_witness :
    NoMarkup blockInput ∧ wellNested (formatContent (some blockInput)) = true :=
  ⟨by decide, C16_well_nested_without_stars blockInput (by decide)⟩

end App
